import Mathlib

/-!
A verification development for the route planner in `astar_search.py`.

The source file implements `shortest_path(M, start, goal)`: an informed
best-first search over a geometrically embedded graph `M` (a map with
`M.intersections : node -> (x, y)` coordinates and `M.roads : node ->
neighbor list`), with `euc_dist` as edge cost and heuristic, and
`reconstruct_path` recovering the route from recorded predecessor links.

The embedding below mirrors the Python code statement by statement:
* dictionaries are association lists with first-binding-wins lookup and
  prepend-on-update (`lookupD`);
* the `PriorityQueue` is a list of `(priority, node)` pairs from which
  `popMin` removes the least pair in the lexicographic tuple order used
  by Python's heap of tuples;
* a `KeyError` (absent dictionary key) is modelled by `Option`/`none`
  and surfaces as `Outcome.err`;
* the unbounded `while` loops are modelled with a fuel parameter plus a
  classical choice of a sufficient fuel; the marker `Outcome.diverged`
  stands for the (provably impossible) case that no fuel suffices;
* Python floats are idealized as real numbers, so `euc_dist` uses
  `Real.sqrt` and the search state is valued in `ℝ`.
-/

set_option maxHeartbeats 1000000
set_option linter.unusedVariables false

namespace RoutePlanner

abbrev Node := Nat

/-- The map object consumed by `shortest_path`: `intersections` assigns
planar coordinates to nodes, `roads` assigns to each node its neighbor
list. -/
structure Map where
  intersections : List (Node × ℚ × ℚ)
  roads : List (Node × List Node)

/-- Python dictionary lookup on an association list: the first binding
for a key wins (updates are modelled by prepending a new binding). -/
def lookupD {α : Type _} : List (Node × α) → Node → Option α
  | [], _ => none
  | (k, v) :: rest, n => if n = k then some v else lookupD rest n

/-- The node set of the map: the keys of `M.intersections`. -/
def nodesList (M : Map) : List Node :=
  M.intersections.map Prod.fst

/-- Boolean well-formedness check: every node of the map has a road
list, and all of its neighbors are nodes of the map. -/
def wfMapB (M : Map) : Bool :=
  (nodesList M).all fun n =>
    match lookupD M.roads n with
    | some l => l.all fun m => (nodesList M).contains m
    | none => false

/-- A well-formed map, as assumed of the Graph collaborator: every node
has an adjacency list whose members are again nodes of the map. -/
def WFMap (M : Map) : Prop := wfMapB M = true

/-- `euc_dist` on raw coordinates: `sqrt((x1-x2)**2 + (y1-y2)**2)`. -/
noncomputable def eucRR (p q : ℚ × ℚ) : ℝ :=
  Real.sqrt (((p.1 : ℝ) - (q.1 : ℝ)) ^ 2 + ((p.2 : ℝ) - (q.2 : ℝ)) ^ 2)

/-- `euc_dist(M, node1, node2)`: looks up both coordinate tuples in
`M.intersections` (a `KeyError`, i.e. `none`, if either is absent) and
returns the Euclidean distance between them. -/
noncomputable def euc_dist (M : Map) (node1 node2 : Node) : Option ℝ :=
  match lookupD M.intersections node1, lookupD M.intersections node2 with
  | some p, some q => some (eucRR p q)
  | _, _ => none

/-- `validSteps M p` holds when every consecutive pair of `p` is an edge
of `M`: the second node occurs in the road list of the first. -/
def validSteps (M : Map) : List Node → Prop
  | a :: b :: rest => (∃ l, lookupD M.roads a = some l ∧ b ∈ l) ∧ validSteps M (b :: rest)
  | _ => True

/-- A walk in `M` from `a` to `b`: a nonempty node sequence starting at
`a`, ending at `b`, each consecutive pair being an edge of `M`. -/
def IsWalk (M : Map) (a b : Node) (p : List Node) : Prop :=
  p ≠ [] ∧ p.head? = some a ∧ p.getLast? = some b ∧ validSteps M p

/-- The total cost of a node sequence: the sum of the Euclidean
distances of its consecutive pairs (`none` if a coordinate is absent). -/
noncomputable def walkCost (M : Map) : List Node → Option ℝ
  | a :: b :: rest =>
    match euc_dist M a b, walkCost M (b :: rest) with
    | some d, some c => some (d + c)
    | _, _ => none
  | _ => some 0

/-- All costs of walks from `a` to `b` in `M`. -/
def WalkCosts (M : Map) (a b : Node) : Set ℝ :=
  {c | ∃ p, IsWalk M a b p ∧ walkCost M p = some c}

/-- `b` is reachable from `a` in `M`. -/
def Reachable (M : Map) (a b : Node) : Prop :=
  ∃ p, IsWalk M a b p

/-- The search state of the main loop of `shortest_path`: the priority
queue `frontier`, the cost dictionary `G` and the predecessor
dictionary `prev` (called `prev_link` in the source). -/
structure SPState where
  frontier : List (ℝ × Node)
  G : List (Node × ℝ)
  prev : List (Node × Option Node)

/-- Function view of the cost dictionary `G`. -/
def Gf (st : SPState) (n : Node) : Option ℝ :=
  lookupD st.G n

/-- `prev_link.get(curr, None)`: `None` both for an absent key and for a
stored `None` (the start node's entry). -/
def prevGet (pl : List (Node × Option Node)) (n : Node) : Option Node :=
  match lookupD pl n with
  | some (some u) => some u
  | _ => none

/-- Strict lexicographic order on `(priority, node)` pairs, the order in
which Python compares the tuples stored in the priority queue. -/
def lexLt (x y : ℝ × Node) : Prop :=
  x.1 < y.1 ∨ (x.1 = y.1 ∧ x.2 < y.2)

open Classical in
/-- The least `(priority, node)` pair of the queue (`none` if empty). -/
noncomputable def minEntry : List (ℝ × Node) → Option (ℝ × Node)
  | [] => none
  | x :: xs =>
    match minEntry xs with
    | none => some x
    | some m => if lexLt m x then some m else some x

/-- Remove the first occurrence of a value from the queue. -/
noncomputable def removeFirst : List (ℝ × Node) → (ℝ × Node) → List (ℝ × Node)
  | [], _ => []
  | x :: xs, y => if x = y then xs else x :: removeFirst xs y

/-- `frontier.get()`: extract a least-priority entry and the remaining
queue, or `none` when the queue is empty. -/
noncomputable def popMin (l : List (ℝ × Node)) : Option ((ℝ × Node) × List (ℝ × Node)) :=
  match minEntry l with
  | none => none
  | some m => some (m, removeFirst l m)

/-- One pass of the body of `for neighbor in M.roads[current_node]`:

    g_tentative = G[current_node] + euc_dist(M, current_node, neighbor)
    if neighbor not in G or g_tentative < G[neighbor]:
        G[neighbor] = g_tentative
        f = g_tentative + H[neighbor]
        frontier.put((f, neighbor))
        prev_link[neighbor] = current_node

`none` is a `KeyError` (from `G[current_node]`, from `euc_dist`, or from
`H[neighbor]`; in the last case the source mutates `G` before raising,
which is unobservable since an exception aborts the whole call). -/
noncomputable def relaxOne (M : Map) (H : List (Node × ℝ)) (current : Node)
    (st : SPState) (nb : Node) : Option SPState :=
  match lookupD st.G current with
  | none => none
  | some gc =>
    match euc_dist M current nb with
    | none => none
    | some d =>
      let gt := gc + d
      match lookupD st.G nb with
      | some gn =>
        if gt < gn then
          match lookupD H nb with
          | none => none
          | some hn =>
            some ⟨(gt + hn, nb) :: st.frontier, (nb, gt) :: st.G, (nb, some current) :: st.prev⟩
        else some st
      | none =>
        match lookupD H nb with
        | none => none
        | some hn =>
          some ⟨(gt + hn, nb) :: st.frontier, (nb, gt) :: st.G, (nb, some current) :: st.prev⟩

/-- The whole `for neighbor in M.roads[current_node]` loop: look up the
road list of `current` (`KeyError` if absent) and relax each neighbor in
order. -/
noncomputable def expand (M : Map) (H : List (Node × ℝ)) (current : Node)
    (st : SPState) : Option SPState :=
  match lookupD M.roads current with
  | none => none
  | some nbrs => List.foldlM (relaxOne M H current) st nbrs

/-- Result of one iteration of the main `while` loop. -/
inductive StepRes where
  | halt : StepRes
  | error : StepRes
  | next : SPState → StepRes

/-- One iteration of `while not frontier.empty()`: if the queue is empty
the loop ends; otherwise extract the least entry and expand its node.
When the extracted node equals `goal` the source additionally calls
`reconstruct_path` and discards the result; that call has no effect on
the state (and, by the chain invariant proved below, it terminates), so
it does not appear here. -/
noncomputable def step (M : Map) (H : List (Node × ℝ)) (goal : Node)
    (st : SPState) : StepRes :=
  match popMin st.frontier with
  | none => .halt
  | some (e, rest) =>
    match expand M H e.2 ⟨rest, st.G, st.prev⟩ with
    | none => .error
    | some st' => .next st'

/-- Result of running the main loop with a given amount of fuel. -/
inductive LoopRes where
  | finished : SPState → LoopRes
  | errored : LoopRes
  | fuelOut : SPState → LoopRes

/-- Run the main loop for at most `fuel` iterations. -/
noncomputable def runFrom (M : Map) (H : List (Node × ℝ)) (goal : Node) :
    ℕ → SPState → LoopRes
  | 0, st => .fuelOut st
  | fuel + 1, st =>
    match step M H goal st with
    | .halt => .finished st
    | .error => .errored
    | .next st' => runFrom M H goal fuel st'

/-- The run is over (the fuel was not exhausted). -/
def loopDone : LoopRes → Prop
  | .fuelOut _ => False
  | _ => True

open Classical in
/-- The final verdict of the loop: `some (some st)` if it halts in state
`st`, `some none` if it raises, `none` if no fuel suffices (shown
impossible below). -/
noncomputable def runResult (M : Map) (H : List (Node × ℝ)) (goal : Node)
    (st0 : SPState) : Option (Option SPState) :=
  if h : ∃ k, loopDone (runFrom M H goal k st0) then
    match runFrom M H goal (Nat.find h) st0 with
    | .finished st => some (some st)
    | .errored => some none
    | .fuelOut _ => none
  else none

/-- The body of `reconstruct_path` with fuel: starting from `curr` with
accumulated list `acc` (the source's `path`, which begins as `[goal]`):

    while curr != start:
        curr = prev_link.get(curr, None)
        if curr is None:
            return None
        path.append(curr)
    return path[::-1]

`some none` is the `return None` branch, `some (some p)` the final
reversed path, and `none` means the fuel ran out. -/
def reconFuel (pl : List (Node × Option Node)) (start : Node) :
    ℕ → Node → List Node → Option (Option (List Node))
  | 0, _, _ => none
  | fuel + 1, curr, acc =>
    if curr = start then some (some acc.reverse)
    else
      match prevGet pl curr with
      | none => some none
      | some nxt => reconFuel pl start fuel nxt (acc ++ [nxt])

open Classical in
/-- `reconstruct_path(prev_link, start, goal)`: run the backtracking
loop with a sufficient fuel; `none` means the loop never terminates
(a cyclic predecessor map — never produced by the search). -/
noncomputable def reconstruct_path (pl : List (Node × Option Node))
    (start goal : Node) : Option (Option (List Node)) :=
  if h : ∃ k, (reconFuel pl start k goal [goal]).isSome then
    reconFuel pl start (Nat.find h) goal [goal]
  else none

/-- `H = {node: euc_dist(M, node, goal) for node in M.intersections}`,
computed before the main loop; `none` if some distance raises. -/
noncomputable def computeH (M : Map) (goal : Node) : Option (List (Node × ℝ)) :=
  M.intersections.mapM fun p =>
    match euc_dist M p.1 goal with
    | some d => some (p.1, d)
    | none => none

/-- The initialization phase of `shortest_path` (everything before the
main loop): build `H`, look up `H[start]`, and set

    frontier = [(H[start] + 0, start)];  G = {start: 0};
    prev_link = {start: None}.

`none` models a `KeyError` raised before the loop begins. -/
noncomputable def initState (M : Map) (start goal : Node) :
    Option (List (Node × ℝ) × SPState) :=
  match computeH M goal with
  | none => none
  | some H =>
    match lookupD H start with
    | none => none
    | some hs => some (H, ⟨[(hs + 0, start)], [(start, 0)], [(start, none)]⟩)

/-- The observable outcome of a call to `shortest_path`. -/
inductive Outcome where
  | err : Outcome
  | diverged : Outcome
  | noPath : Outcome
  | path : List Node → Outcome

/-- `shortest_path(M, start, goal)`: initialization, the main loop run to
completion, and the final unconditional `return reconstruct_path(...)`.
`Outcome.err` is an uncaught exception, `Outcome.noPath` is the `None`
return value, `Outcome.diverged` marks nontermination of a loop (proved
unreachable below). -/
noncomputable def shortest_path (M : Map) (start goal : Node) : Outcome :=
  match initState M start goal with
  | none => .err
  | some (H, st0) =>
    match runResult M H goal st0 with
    | none => .diverged
    | some none => .err
    | some (some stF) =>
      match reconstruct_path stF.prev start goal with
      | none => .diverged
      | some none => .noPath
      | some (some p) => .path p

/-- A predecessor chain: following `prev_link` backwards from `n`
eventually reaches `start`. -/
inductive Chain (pl : List (Node × Option Node)) (start : Node) : Node → Prop
  | base : Chain pl start start
  | step {n u : Node} : prevGet pl n = some u → Chain pl start u → Chain pl start n

/-- Walking `prev_link` backwards from `n` reaches a node that is not
`start` and has no recorded predecessor. -/
inductive BadWalk (pl : List (Node × Option Node)) (start : Node) : Node → Prop
  | found {n : Node} : n ≠ start → prevGet pl n = none → BadWalk pl start n
  | step {n u : Node} : n ≠ start → prevGet pl n = some u → BadWalk pl start u → BadWalk pl start n

/-- `LinksTo pl start n p`: `p` is the start-to-`n` node sequence read
off the predecessor links, i.e. the backtracked chain in forward order. -/
inductive LinksTo (pl : List (Node × Option Node)) (start : Node) : Node → List Node → Prop
  | base : LinksTo pl start start [start]
  | step {n u : Node} {p : List Node} : n ≠ start → prevGet pl n = some u →
      LinksTo pl start u p → LinksTo pl start n (p ++ [n])

/-- The key set of the cost dictionary, as a finset. -/
def gKeys (st : SPState) : Finset Node :=
  (st.G.map Prod.fst).toFinset

/-- Number of map nodes not yet present in `G` (first component of the
termination measure). -/
def unseen (M : Map) (st : SPState) : ℕ :=
  ((nodesList M).toFinset.filter fun n => (lookupD st.G n).isNone).card

/-- The set of all pairwise Euclidean distances realized by coordinates
of the map; every edge cost and hence every walk-cost summand lies in
this finite set. -/
noncomputable def allDists (M : Map) : Finset ℝ :=
  Finset.image₂ eucRR (M.intersections.map Prod.snd).toFinset
    (M.intersections.map Prod.snd).toFinset

/-- Sums of at most `k` elements of `D`; a finite overapproximation of
the walk costs below a bound. -/
noncomputable def sumsUpTo (D : Finset ℝ) : ℕ → Set ℝ
  | 0 => {0}
  | k + 1 => sumsUpTo D k ∪ ⋃ a ∈ D, Set.image (fun x => a + x) (sumsUpTo D k)

/-- Second component of the termination measure: for each node already
in `G`, the number of strictly better walk costs still available. -/
noncomputable def mu2 (M : Map) (start : Node) (st : SPState) : ℕ :=
  Finset.sum (gKeys st) fun n =>
    Set.ncard {c ∈ WalkCosts M start n | c < (lookupD st.G n).getD 0}

/-- The single-step relation of the main loop. -/
def stepRel (M : Map) (H : List (Node × ℝ)) (goal : Node) (st st' : SPState) : Prop :=
  step M H goal st = .next st'

/-- The example map: three collinear intersections 0,1,2 at (0,0), (1,0),
(2,0), with roads 0-1, 1-2 (so all inter-node distances are integers). -/
def mapEx : Map :=
  ⟨[(0, (0, 0)), (1, (1, 0)), (2, (2, 0))], [(0, [1]), (1, [0, 2]), (2, [1])]⟩

/-- A disconnected example map: two isolated intersections. -/
def mapDisc : Map :=
  ⟨[(0, (0, 0)), (1, (5, 0))], [(0, []), (1, [])]⟩

/-- The heuristic dictionary computed by a search on `mapEx` with goal 1. -/
noncomputable def hEx : List (Node × ℝ) := [(0, 1), (1, 0), (2, 1)]

/-- The state of that search just before the main loop. -/
noncomputable def stEx0 : SPState := ⟨[(1, 0)], [(0, 0)], [(0, none)]⟩

/-- The state after the first iteration (node 0 expanded). -/
noncomputable def stEx1 : SPState :=
  ⟨[(1, 1)], [(1, 1), (0, 0)], [(1, some 0), (0, none)]⟩

/-- The state after the second iteration, the one that extracts the goal
node 1: the loop keeps going and node 2 has just been put on the
frontier. -/
noncomputable def stEx2 : SPState :=
  ⟨[(3, 2)], [(2, 2), (1, 1), (0, 0)], [(2, some 1), (1, some 0), (0, none)]⟩

/-- The state after the third iteration (node 2, extracted after the
goal, has been expanded); the frontier is now empty. -/
noncomputable def stEx3 : SPState :=
  ⟨[], [(2, 2), (1, 1), (0, 0)], [(2, some 1), (1, some 0), (0, none)]⟩

/-- `(a, b)` is an edge of the map: `b` occurs in `M.roads[a]`. -/
def edgeTo (M : Map) (a b : Node) : Prop :=
  ∃ l, lookupD M.roads a = some l ∧ b ∈ l

/-- All outgoing edges of `n` are relaxed in state `st`: each neighbor
is in `G` with a value at most `G[n] + edge cost`. -/
def ClosedAt (M : Map) (st : SPState) (n : Node) : Prop :=
  ∃ l, lookupD M.roads n = some l ∧ ∀ v ∈ l, ∃ d gn gv, euc_dist M n v = some d ∧
    lookupD st.G n = some gn ∧ lookupD st.G v = some gv ∧ gv ≤ gn + d

/-- The core loop invariant of `shortest_path`, tied to start node `s`
and heuristic dictionary `H`. -/
structure Inv (M : Map) (s : Node) (H : List (Node × ℝ)) (st : SPState) : Prop where
  gstart : lookupD st.G s = some 0
  gval : ∀ n v, lookupD st.G n = some v → 0 ≤ v ∧ v ∈ WalkCosts M s n
  frontierG : ∀ e ∈ st.frontier, (lookupD st.G e.2).isSome
  gsub : ∀ n, (lookupD st.G n).isSome → (lookupD H n).isSome
  linkOk : ∀ n u, prevGet st.prev n = some u → n ≠ s ∧ edgeTo M u n ∧
    ∃ gn gu d, lookupD st.G n = some gn ∧ lookupD st.G u = some gu ∧
      euc_dist M u n = some d ∧ gu + d ≤ gn
  prevStart : lookupD st.prev s = some none
  chains : ∀ n, (lookupD st.G n).isSome → Chain st.prev s n
  domEq : ∀ n, (lookupD st.prev n).isSome ↔ (lookupD st.G n).isSome

/-- Every node of `G` is either fully relaxed or still pending in the
frontier; together with `Inv` this is the full invariant. -/
def ClosedInv (M : Map) (st : SPState) : Prop :=
  ∀ n, (lookupD st.G n).isSome → ClosedAt M st n ∨ ∃ e ∈ st.frontier, e.2 = n

/-- How one (partial) loop iteration moved the termination measure:
a new `G` key appeared, or nothing changed, or some `G` value strictly
dropped while the key set stayed put. -/
def MeasureCase (M : Map) (s : Node) (st st' : SPState) : Prop :=
  unseen M st' < unseen M st ∨ st' = st ∨
    (unseen M st' = unseen M st ∧ mu2 M s st' < mu2 M s st)

/-- The coordinates of a map point, as a vector of the Euclidean plane. -/
noncomputable def toE2 (p : ℚ × ℚ) : EuclideanSpace ℝ (Fin 2) :=
  ![(p.1 : ℝ), (p.2 : ℝ)]

/-- What any number of relaxations inside one loop iteration does to the
state: `G` keys only grow, `G` values only shrink, frontier entries are
never removed, every touched node gets a fresh frontier entry, and the
termination measure does not move the wrong way. -/
structure RelaxFacts (M : Map) (s : Node) (st st' : SPState) : Prop where
  keysMono : ∀ n, (lookupD st.G n).isSome → (lookupD st'.G n).isSome
  valMono : ∀ n v v', lookupD st.G n = some v → lookupD st'.G n = some v' → v' ≤ v
  frontMono : ∀ e ∈ st.frontier, e ∈ st'.frontier
  changeFront : ∀ n v v', lookupD st.G n = some v → lookupD st'.G n = some v' → v' < v →
    ∃ e ∈ st'.frontier, e.2 = n
  newFront : ∀ n, lookupD st.G n = none → (lookupD st'.G n).isSome →
    ∃ e ∈ st'.frontier, e.2 = n
  meas : MeasureCase M s st st'

/-! ### Basic dictionary lemmas -/

lemma lookupD_isSome_iff_mem {α : Type _} (l : List (Node × α)) (n : Node) :
    (lookupD l n).isSome ↔ n ∈ l.map Prod.fst := by
  induction l with
  | nil => simp [lookupD]
  | cons x rest ih =>
    obtain ⟨k, v⟩ := x
    by_cases h : n = k <;> simp [lookupD, h, ih]

lemma lookupD_cons_ne {α : Type _} (l : List (Node × α)) {n k : Node} (v : α)
    (h : n ≠ k) : lookupD ((k, v) :: l) n = lookupD l n := by
  simp [lookupD, h]

lemma lookupD_cons_self {α : Type _} (l : List (Node × α)) (k : Node) (v : α) :
    lookupD ((k, v) :: l) k = some v := by
  simp [lookupD]

/-! ### Fuel monotonicity and stabilization for `reconstruct_path` -/

lemma reconFuel_succ_of_some {pl : List (Node × Option Node)} {s : Node} :
    ∀ {k : ℕ} {c : Node} {acc : List Node} {r : Option (List Node)},
      reconFuel pl s k c acc = some r → reconFuel pl s (k + 1) c acc = some r := by
  intro k
  induction k with
  | zero => intro c acc r h; simp [reconFuel] at h
  | succ k ih =>
    intro c acc r h
    rw [reconFuel] at h ⊢
    by_cases hc : c = s
    · simpa [hc] using h
    · simp only [hc, if_false] at h ⊢
      cases hp : prevGet pl c with
      | none => simpa [hp] using h
      | some nxt =>
        rw [hp] at h
        simpa [hp] using ih h

lemma reconFuel_mono {pl : List (Node × Option Node)} {s : Node}
    {k j : ℕ} {c : Node} {acc : List Node} {r : Option (List Node)}
    (hkj : k ≤ j) (h : reconFuel pl s k c acc = some r) :
    reconFuel pl s j c acc = some r := by
  induction j with
  | zero =>
    have : k = 0 := Nat.le_zero.mp hkj
    subst this; exact h
  | succ j ih =>
    rcases Nat.lt_or_ge k (j + 1) with hlt | hge
    · exact reconFuel_succ_of_some (ih (Nat.lt_succ_iff.mp hlt))
    · have : k = j + 1 := Nat.le_antisymm hkj hge
      subst this; exact h

lemma reconstruct_path_eq_of_fuel {pl : List (Node × Option Node)} {s g : Node}
    {k : ℕ} {r : Option (List Node)} (h : reconFuel pl s k g [g] = some r) :
    reconstruct_path pl s g = some r := by
  have hex : ∃ m, (reconFuel pl s m g [g]).isSome := ⟨k, by simp [h]⟩
  rw [reconstruct_path, dif_pos hex]
  set m := Nat.find hex with hm
  have hmle : m ≤ k := by
    apply Nat.find_le
    simp [h]
  have hsome : (reconFuel pl s m g [g]).isSome := Nat.find_spec hex
  obtain ⟨r', hr'⟩ := Option.isSome_iff_exists.mp hsome
  have := reconFuel_mono hmle hr'
  rw [this] at h
  rw [hr', h]

/-! ### The chain read off by `reconstruct_path` -/

lemma dropLast_append_getLast_of {α : Type _} {p : List α} {u : α}
    (h : p.getLast? = some u) : p.dropLast ++ [u] = p := by
  have hne : p ≠ [] := by rintro rfl; simp at h
  rw [List.getLast?_eq_getLast p hne, Option.some_inj] at h
  rw [← h, List.dropLast_append_getLast hne]

lemma LinksTo.ne_nil {pl : List (Node × Option Node)} {s n : Node} {p : List Node}
    (h : LinksTo pl s n p) : p ≠ [] := by
  cases h <;> simp

lemma LinksTo.getLast_eq {pl : List (Node × Option Node)} {s n : Node} {p : List Node}
    (h : LinksTo pl s n p) : p.getLast? = some n := by
  cases h with
  | base => rfl
  | step hne hlink hprev => simp [List.getLast?_append]

lemma LinksTo.head_eq {pl : List (Node × Option Node)} {s n : Node} {p : List Node}
    (h : LinksTo pl s n p) : p.head? = some s := by
  induction h with
  | base => rfl
  | step hne hlink hprev ih =>
    rename_i p'
    cases p' with
    | nil => exact absurd rfl hprev.ne_nil
    | cons a rest => simpa using ih

lemma LinksTo.reconRuns {pl : List (Node × Option Node)} {s n : Node} {p : List Node}
    (h : LinksTo pl s n p) :
    ∀ acc : List Node, ∃ k, reconFuel pl s k n acc = some (some (p.dropLast ++ acc.reverse)) := by
  induction h with
  | base =>
    intro acc
    exact ⟨1, by simp [reconFuel]⟩
  | step hne hlink hprev ih =>
    rename_i n' u p'
    intro acc
    obtain ⟨k, hk⟩ := ih (acc ++ [u])
    refine ⟨k + 1, ?_⟩
    simp only [reconFuel, if_neg hne, hlink]
    rw [hk]
    have hlast : p'.dropLast ++ [u] = p' := dropLast_append_getLast_of hprev.getLast_eq
    simp only [List.reverse_append, List.reverse_cons, List.reverse_nil, List.nil_append,
      List.dropLast_concat, List.singleton_append]
    rw [show (u :: acc.reverse : List Node) = [u] ++ acc.reverse from rfl,
      ← List.append_assoc, hlast]

lemma reconFuel_some_inv {pl : List (Node × Option Node)} {s : Node} :
    ∀ {k : ℕ} {n : Node} {acc : List Node} {r : List Node},
      reconFuel pl s k n acc = some (some r) →
      ∃ p, LinksTo pl s n p ∧ r = p.dropLast ++ acc.reverse := by
  intro k
  induction k with
  | zero => intro n acc r h; simp [reconFuel] at h
  | succ k ih =>
    intro n acc r h
    rw [reconFuel] at h
    by_cases hn : n = s
    · subst hn
      rw [if_pos rfl] at h
      refine ⟨[n], LinksTo.base, ?_⟩
      simp only [Option.some_inj] at h
      simp [← h]
    · simp only [hn, if_false] at h
      cases hp : prevGet pl n with
      | none => rw [hp] at h; simp at h
      | some u =>
        rw [hp] at h
        obtain ⟨p, hlp, hr⟩ := ih h
        refine ⟨p ++ [n], LinksTo.step hn hp hlp, ?_⟩
        rw [hr]
        simp only [List.reverse_append, List.reverse_cons, List.reverse_nil, List.nil_append,
          List.dropLast_concat, List.singleton_append]
        have hlast : p.dropLast ++ [u] = p := dropLast_append_getLast_of hlp.getLast_eq
        rw [show (u :: acc.reverse : List Node) = [u] ++ acc.reverse from rfl,
          ← List.append_assoc, hlast]

lemma reconFuel_none_inv {pl : List (Node × Option Node)} {s : Node} :
    ∀ {k : ℕ} {n : Node} {acc : List Node},
      reconFuel pl s k n acc = some none → BadWalk pl s n := by
  intro k
  induction k with
  | zero => intro n acc h; simp [reconFuel] at h
  | succ k ih =>
    intro n acc h
    rw [reconFuel] at h
    by_cases hn : n = s
    · simp [hn] at h
    · simp only [hn, if_false] at h
      cases hp : prevGet pl n with
      | none => exact BadWalk.found hn hp
      | some u =>
        rw [hp] at h
        exact BadWalk.step hn hp (ih h)

lemma BadWalk.reconFails {pl : List (Node × Option Node)} {s n : Node}
    (h : BadWalk pl s n) :
    ∀ acc : List Node, ∃ k, reconFuel pl s k n acc = some none := by
  induction h with
  | found hne hnone =>
    intro acc
    exact ⟨1, by rw [reconFuel, if_neg hne, hnone]⟩
  | step hne hlink hprev ih =>
    rename_i n' u
    intro acc
    obtain ⟨k, hk⟩ := ih (acc ++ [u])
    refine ⟨k + 1, ?_⟩
    simp only [reconFuel, if_neg hne, hlink]
    exact hk

lemma LinksTo.unique {pl : List (Node × Option Node)} {s n : Node} {p q : List Node}
    (hp : LinksTo pl s n p) (hq : LinksTo pl s n q) : p = q := by
  induction hp generalizing q with
  | base =>
    cases hq with
    | base => rfl
    | step hne hlink hprev => exact absurd rfl hne
  | step hne hlink hprev ih =>
    cases hq with
    | base => exact absurd rfl hne
    | step hne' hlink' hprev' =>
      rw [hlink] at hlink'
      obtain rfl : _ = _ := Option.some_inj.mp hlink'.symm
      rw [ih hprev']

lemma Chain.linksTo {pl : List (Node × Option Node)} {s n : Node}
    (h : Chain pl s n) : ∃ p, LinksTo pl s n p := by
  induction h with
  | base => exact ⟨[s], LinksTo.base⟩
  | step hlink hchain ih =>
    rename_i n' u
    by_cases hn : n' = s
    · exact ⟨[s], hn ▸ LinksTo.base⟩
    · obtain ⟨p, hp⟩ := ih
      exact ⟨p ++ [n'], LinksTo.step hn hlink hp⟩

lemma reconstruct_path_of_linksTo {pl : List (Node × Option Node)} {s g : Node}
    {p : List Node} (h : LinksTo pl s g p) :
    reconstruct_path pl s g = some (some p) := by
  obtain ⟨k, hk⟩ := h.reconRuns [g]
  have hlast : p.dropLast ++ [g] = p := dropLast_append_getLast_of h.getLast_eq
  rw [show ([g] : List Node).reverse = [g] from rfl] at hk
  rw [hlast] at hk
  exact reconstruct_path_eq_of_fuel hk

lemma reconstruct_path_of_badWalk {pl : List (Node × Option Node)} {s g : Node}
    (h : BadWalk pl s g) : reconstruct_path pl s g = some none := by
  obtain ⟨k, hk⟩ := h.reconFails [g]
  exact reconstruct_path_eq_of_fuel hk

lemma reconstruct_path_some_none_iff {pl : List (Node × Option Node)} {s g : Node} :
    reconstruct_path pl s g = some none ↔ BadWalk pl s g := by
  constructor
  · intro h
    rw [reconstruct_path] at h
    split at h
    · exact reconFuel_none_inv h
    · simp at h
  · exact reconstruct_path_of_badWalk

lemma reconstruct_path_some_some_iff {pl : List (Node × Option Node)} {s g : Node}
    (p : List Node) :
    reconstruct_path pl s g = some (some p) ↔ LinksTo pl s g p := by
  constructor
  · intro h
    rw [reconstruct_path] at h
    split at h
    · obtain ⟨q, hq, hr⟩ := reconFuel_some_inv h
      have hlast : q.dropLast ++ [g] = q := dropLast_append_getLast_of hq.getLast_eq
      rw [show ([g] : List Node).reverse = [g] from rfl, hlast] at hr
      rwa [hr]
    · simp at h
  · exact reconstruct_path_of_linksTo

/-! ### Euclidean distance: nonnegativity and the triangle inequality -/

lemma eucRR_eq_dist (p q : ℚ × ℚ) : eucRR p q = dist (toE2 p) (toE2 q) := by
  rw [EuclideanSpace.dist_eq, Fin.sum_univ_two]
  simp [eucRR, toE2, Real.dist_eq, sq_abs]

lemma eucRR_nonneg (p q : ℚ × ℚ) : 0 ≤ eucRR p q :=
  Real.sqrt_nonneg _

lemma eucRR_self (p : ℚ × ℚ) : eucRR p p = 0 := by
  rw [eucRR_eq_dist]; exact dist_self _

lemma eucRR_triangle (p q r : ℚ × ℚ) : eucRR p r ≤ eucRR p q + eucRR q r := by
  rw [eucRR_eq_dist, eucRR_eq_dist, eucRR_eq_dist]
  exact dist_triangle _ _ _

lemma euc_dist_nonneg {M : Map} {a b : Node} {d : ℝ} (h : euc_dist M a b = some d) :
    0 ≤ d := by
  rw [euc_dist] at h
  cases hp : lookupD M.intersections a with
  | none => rw [hp] at h; exact absurd h (by simp)
  | some p =>
    cases hq : lookupD M.intersections b with
    | none => rw [hp, hq] at h; exact absurd h (by simp)
    | some q =>
      rw [hp, hq] at h
      simp only [Option.some_inj] at h
      rw [← h]; exact eucRR_nonneg p q

lemma euc_dist_eq {M : Map} {a b : Node} {p q : ℚ × ℚ}
    (hp : lookupD M.intersections a = some p) (hq : lookupD M.intersections b = some q) :
    euc_dist M a b = some (eucRR p q) := by
  rw [euc_dist, hp, hq]

lemma euc_dist_some_inv {M : Map} {a b : Node} {d : ℝ} (h : euc_dist M a b = some d) :
    ∃ p q, lookupD M.intersections a = some p ∧ lookupD M.intersections b = some q ∧
      d = eucRR p q := by
  rw [euc_dist] at h
  cases hp : lookupD M.intersections a with
  | none => rw [hp] at h; exact absurd h (by simp)
  | some p =>
    cases hq : lookupD M.intersections b with
    | none => rw [hp, hq] at h; exact absurd h (by simp)
    | some q =>
      rw [hp, hq] at h
      exact ⟨p, q, rfl, rfl, (Option.some_inj.mp h).symm⟩

/-! ### Walks and their costs -/

lemma walkCost_nil (M : Map) : walkCost M [] = some 0 := rfl

lemma walkCost_single (M : Map) (a : Node) : walkCost M [a] = some 0 := rfl

lemma walkCost_cons_cons {M : Map} {a b : Node} {rest : List Node} {d c : ℝ}
    (hd : euc_dist M a b = some d) (hc : walkCost M (b :: rest) = some c) :
    walkCost M (a :: b :: rest) = some (d + c) := by
  rw [walkCost, hd, hc]

lemma walkCost_nonneg {M : Map} :
    ∀ {p : List Node} {c : ℝ}, walkCost M p = some c → 0 ≤ c := by
  intro p
  induction p with
  | nil => intro c h; rw [walkCost_nil] at h; simp only [Option.some_inj] at h; simp [← h]
  | cons a rest ih =>
    intro c h
    cases rest with
    | nil =>
      rw [walkCost_single] at h; simp only [Option.some_inj] at h; simp [← h]
    | cons b rest' =>
      rw [walkCost] at h
      cases hd : euc_dist M a b with
      | none => rw [hd] at h; exact absurd h (by simp)
      | some d =>
        cases hc : walkCost M (b :: rest') with
        | none => rw [hd, hc] at h; exact absurd h (by simp)
        | some c' =>
          rw [hd, hc] at h
          simp only [Option.some_inj] at h
          have h1 := euc_dist_nonneg hd
          have h2 := ih hc
          rw [← h]; positivity

lemma validSteps_append_one {M : Map} :
    ∀ {p : List Node} {a b : Node}, validSteps M p → p.getLast? = some a →
      (∃ l, lookupD M.roads a = some l ∧ b ∈ l) → validSteps M (p ++ [b]) := by
  intro p
  induction p with
  | nil => intro a b h hl he; simp at hl
  | cons x rest ih =>
    intro a b h hl he
    cases rest with
    | nil =>
      simp only [List.getLast?_singleton, Option.some_inj] at hl
      subst hl
      exact ⟨he, trivial⟩
    | cons y rest' =>
      obtain ⟨hxy, htail⟩ := h
      have hl' : (y :: rest').getLast? = some a := by
        simpa [List.getLast?_cons_cons] using hl
      exact ⟨hxy, ih htail hl' he⟩

lemma IsWalk.single {M : Map} (a : Node) : IsWalk M a a [a] :=
  ⟨by simp, rfl, rfl, trivial⟩

lemma IsWalk.append_one {M : Map} {s a b : Node} {p : List Node}
    (h : IsWalk M s a p) (he : ∃ l, lookupD M.roads a = some l ∧ b ∈ l) :
    IsWalk M s b (p ++ [b]) := by
  obtain ⟨hne, hh, hl, hv⟩ := h
  refine ⟨by simp, ?_, ?_, validSteps_append_one hv hl he⟩
  · cases p with
    | nil => exact absurd rfl hne
    | cons x rest => simpa using hh
  · simp [List.getLast?_append]

lemma WalkCosts.base (M : Map) (s : Node) : (0 : ℝ) ∈ WalkCosts M s s :=
  ⟨[s], IsWalk.single s, walkCost_single M s⟩

lemma walkCost_append_one {M : Map} :
    ∀ {p : List Node} {a b : Node} {c d : ℝ}, walkCost M p = some c →
      p.getLast? = some a → euc_dist M a b = some d →
      walkCost M (p ++ [b]) = some (c + d) := by
  intro p
  induction p with
  | nil => intro a b c d hc hl hd; simp at hl
  | cons x rest ih =>
    intro a b c d hc hl hd
    cases rest with
    | nil =>
      simp only [List.getLast?_singleton, Option.some_inj] at hl
      subst hl
      rw [walkCost_single, Option.some_inj] at hc
      rw [List.singleton_append,
        walkCost_cons_cons hd (walkCost_single M b)]
      rw [← hc]; ring_nf
    | cons y rest' =>
      rw [walkCost] at hc
      cases hxy : euc_dist M x y with
      | none => rw [hxy] at hc; exact absurd hc (by simp)
      | some dxy =>
        cases hyc : walkCost M (y :: rest') with
        | none => rw [hxy, hyc] at hc; exact absurd hc (by simp)
        | some cy =>
          rw [hxy, hyc] at hc
          simp only [Option.some_inj] at hc
          have hl' : (y :: rest').getLast? = some a := by
            simpa [List.getLast?_cons_cons] using hl
          have h2 : walkCost M (y :: (rest' ++ [b])) = some (cy + d) := ih hyc hl' hd
          show walkCost M (x :: y :: (rest' ++ [b])) = some (c + d)
          rw [walkCost_cons_cons hxy h2, Option.some_inj]
          rw [← hc]; ring

lemma WalkCosts.step {M : Map} {s a b : Node} {c d : ℝ}
    (hc : c ∈ WalkCosts M s a) (he : ∃ l, lookupD M.roads a = some l ∧ b ∈ l)
    (hd : euc_dist M a b = some d) : c + d ∈ WalkCosts M s b := by
  obtain ⟨p, hw, hcost⟩ := hc
  exact ⟨p ++ [b], hw.append_one he, walkCost_append_one hcost hw.2.2.1 hd⟩

/-! ### Finiteness of walk costs below a bound -/

lemma lookupD_mem {α : Type _} :
    ∀ {l : List (Node × α)} {n : Node} {v : α}, lookupD l n = some v → (n, v) ∈ l := by
  intro l
  induction l with
  | nil => intro n v h; simp [lookupD] at h
  | cons x rest ih =>
    intro n v h
    obtain ⟨k, w⟩ := x
    by_cases hn : n = k
    · subst hn
      rw [lookupD_cons_self] at h
      simp [Option.some_inj.mp h]
    · rw [lookupD_cons_ne _ _ hn] at h
      exact List.mem_cons_of_mem _ (ih h)

lemma euc_dist_mem_allDists {M : Map} {a b : Node} {d : ℝ}
    (h : euc_dist M a b = some d) : d ∈ allDists M := by
  obtain ⟨p, q, hp, hq, rfl⟩ := euc_dist_some_inv h
  rw [allDists]
  refine Finset.mem_image₂_of_mem ?_ ?_
  · simp only [List.mem_toFinset, List.mem_map]
    exact ⟨(a, p), lookupD_mem hp, rfl⟩
  · simp only [List.mem_toFinset, List.mem_map]
    exact ⟨(b, q), lookupD_mem hq, rfl⟩

lemma walkCost_sum_list {M : Map} :
    ∀ {p : List Node} {c : ℝ}, walkCost M p = some c →
      ∃ l : List ℝ, l.sum = c ∧ ∀ x ∈ l, 0 ≤ x ∧ x ∈ allDists M := by
  intro p
  induction p with
  | nil =>
    intro c h; rw [walkCost_nil] at h; simp only [Option.some_inj] at h
    exact ⟨[], by simp [← h], by simp⟩
  | cons a rest ih =>
    intro c h
    cases rest with
    | nil =>
      rw [walkCost_single] at h; simp only [Option.some_inj] at h
      exact ⟨[], by simp [← h], by simp⟩
    | cons b rest' =>
      rw [walkCost] at h
      cases hd : euc_dist M a b with
      | none => rw [hd] at h; exact absurd h (by simp)
      | some d =>
        cases hc : walkCost M (b :: rest') with
        | none => rw [hd, hc] at h; exact absurd h (by simp)
        | some c' =>
          rw [hd, hc] at h
          simp only [Option.some_inj] at h
          obtain ⟨l, hsum, hmem⟩ := ih hc
          refine ⟨d :: l, ?_, ?_⟩
          · rw [List.sum_cons, hsum, h]
          · intro x hx
            rcases List.mem_cons.mp hx with rfl | hx'
            · exact ⟨euc_dist_nonneg hd, euc_dist_mem_allDists hd⟩
            · exact hmem x hx'

lemma sumsUpTo_finite (D : Finset ℝ) : ∀ k, (sumsUpTo D k).Finite := by
  intro k
  induction k with
  | zero => rw [sumsUpTo]; exact Set.finite_singleton 0
  | succ k ih =>
    rw [sumsUpTo]
    refine ih.union (Set.Finite.biUnion D.finite_toSet fun a _ => ih.image _)

lemma sumsUpTo_mono_succ (D : Finset ℝ) (k : ℕ) :
    sumsUpTo D k ⊆ sumsUpTo D (k + 1) := by
  intro x hx
  rw [sumsUpTo]
  exact Set.mem_union_left _ hx

lemma sumsUpTo_mono (D : Finset ℝ) {k j : ℕ} (h : k ≤ j) :
    sumsUpTo D k ⊆ sumsUpTo D j := by
  induction j with
  | zero => rw [Nat.le_zero.mp h]
  | succ j ih =>
    rcases Nat.lt_or_ge k (j + 1) with hlt | hge
    · exact (ih (Nat.lt_succ_iff.mp hlt)).trans (sumsUpTo_mono_succ D j)
    · rw [Nat.le_antisymm h hge]

lemma sum_mem_sumsUpTo (D : Finset ℝ) :
    ∀ (l : List ℝ), (∀ x ∈ l, x ∈ D) → l.sum ∈ sumsUpTo D l.length := by
  intro l
  induction l with
  | nil => intro h; rw [List.sum_nil, List.length_nil, sumsUpTo]; exact rfl
  | cons a l ih =>
    intro h
    rw [List.sum_cons, List.length_cons, sumsUpTo]
    refine Set.mem_union_right _ ?_
    refine Set.mem_biUnion (h a (by simp)) ?_
    exact Set.mem_image_of_mem _ (ih fun x hx => h x (List.mem_cons_of_mem _ hx))

open Classical in
lemma filter_pos_sum (l : List ℝ) (h : ∀ x ∈ l, 0 ≤ x) :
    (l.filter fun x => decide (0 < x)).sum = l.sum := by
  induction l with
  | nil => rfl
  | cons a l ih =>
    rw [List.sum_cons, List.filter_cons]
    by_cases ha : 0 < a
    · rw [if_pos (by simpa using ha), List.sum_cons,
        ih fun x hx => h x (List.mem_cons_of_mem _ hx)]
    · have : a = 0 := le_antisymm (not_lt.mp ha) (h a (by simp))
      rw [if_neg (by simpa using ha), ih fun x hx => h x (List.mem_cons_of_mem _ hx), this,
        zero_add]

lemma le_sum_of_all_le (δ : ℝ) :
    ∀ (l : List ℝ), (∀ x ∈ l, δ ≤ x) → δ * l.length ≤ l.sum := by
  intro l
  induction l with
  | nil => intro h; simp
  | cons a l ih =>
    intro h
    rw [List.sum_cons, List.length_cons]
    push_cast
    have h1 := h a (by simp)
    have h2 := ih fun x hx => h x (List.mem_cons_of_mem _ hx)
    nlinarith

open Classical in
lemma walkCosts_lt_finite (M : Map) (s n : Node) (B : ℝ) :
    {c ∈ WalkCosts M s n | c < B}.Finite := by
  set D := allDists M with hD
  set Dpos := D.filter (fun x => 0 < x) with hDpos
  by_cases hne : Dpos.Nonempty
  · set δ := Dpos.min' hne with hδ
    have hδpos : 0 < δ := (Finset.mem_filter.mp (Dpos.min'_mem hne)).2
    set K := ⌈B / δ⌉₊ with hK
    refine Set.Finite.subset (sumsUpTo_finite D K) ?_
    rintro c ⟨hcw, hcB⟩
    obtain ⟨p, hwalk, hcost⟩ := hcw
    obtain ⟨l, hsum, hmem⟩ := walkCost_sum_list hcost
    set l' := l.filter (fun x => decide (0 < x)) with hl'
    have hsum' : l'.sum = c := by
      rw [hl', filter_pos_sum l fun x hx => (hmem x hx).1, hsum]
    have hmem' : ∀ x ∈ l', δ ≤ x := by
      intro x hx
      rw [hl', List.mem_filter] at hx
      obtain ⟨hxl, hxpos⟩ := hx
      refine Dpos.min'_le x ?_
      rw [hDpos, Finset.mem_filter]
      exact ⟨(hmem x hxl).2, by simpa using hxpos⟩
    have hlen : δ * l'.length ≤ c := hsum' ▸ le_sum_of_all_le δ l' hmem'
    have hlenK : l'.length ≤ K := by
      have h1 : (l'.length : ℝ) < B / δ := by
        rw [lt_div_iff hδpos]
        calc (l'.length : ℝ) * δ = δ * l'.length := by ring
        _ ≤ c := hlen
        _ < B := hcB
      have h2 : (B / δ) ≤ (K : ℝ) := Nat.le_ceil _
      exact (Nat.cast_lt.mp (lt_of_lt_of_le h1 h2)).le
    have : l'.sum ∈ sumsUpTo D l'.length := by
      refine sum_mem_sumsUpTo D l' fun x hx => ?_
      rw [hl', List.mem_filter] at hx
      exact (hmem x hx.1).2
    rw [hsum'] at this
    exact sumsUpTo_mono D hlenK this
  · refine Set.Finite.subset (sumsUpTo_finite D 0) ?_
    rintro c ⟨hcw, hcB⟩
    obtain ⟨p, hwalk, hcost⟩ := hcw
    obtain ⟨l, hsum, hmem⟩ := walkCost_sum_list hcost
    have hall : ∀ x ∈ l, x = 0 := by
      intro x hx
      obtain ⟨hx0, hxD⟩ := hmem x hx
      rcases eq_or_lt_of_le hx0 with h | h
      · exact h.symm
      · exact absurd ⟨x, Finset.mem_filter.mpr ⟨hxD, h⟩⟩ hne
    have : l.sum = 0 := by
      rw [List.sum_eq_zero hall]
    rw [sumsUpTo]
    rw [← hsum, this]
    rfl

/-! ### Priority queue lemmas -/

lemma minEntry_mem :
    ∀ {l : List (ℝ × Node)} {m : ℝ × Node}, minEntry l = some m → m ∈ l := by
  intro l
  induction l with
  | nil => intro m h; simp [minEntry] at h
  | cons x xs ih =>
    intro m h
    cases hxs : minEntry xs with
    | none =>
      simp only [minEntry, hxs, Option.some_inj] at h
      simp [← h]
    | some m' =>
      simp only [minEntry, hxs] at h
      by_cases hlt : lexLt m' x
      · rw [if_pos hlt] at h
        simp only [Option.some_inj] at h
        exact List.mem_cons_of_mem _ (h ▸ ih hxs)
      · rw [if_neg hlt] at h
        simp only [Option.some_inj] at h
        simp [← h]

lemma minEntry_eq_none_iff {l : List (ℝ × Node)} : minEntry l = none ↔ l = [] := by
  cases l with
  | nil => simp [minEntry]
  | cons x xs =>
    simp only [minEntry]
    constructor
    · intro h
      cases hxs : minEntry xs with
      | none => rw [hxs] at h; simp at h
      | some m' =>
        rw [hxs] at h
        by_cases hlt : lexLt m' x <;> simp [hlt] at h
    · intro h; exact absurd h (by simp)

lemma mem_removeFirst_of_ne :
    ∀ {l : List (ℝ × Node)} {y e : ℝ × Node}, y ∈ l → y ≠ e → y ∈ removeFirst l e := by
  intro l
  induction l with
  | nil => intro y e h _; simp at h
  | cons x xs ih =>
    intro y e hy hne
    rw [removeFirst]
    by_cases hx : x = e
    · rw [if_pos hx]
      rcases List.mem_cons.mp hy with rfl | h
      · exact absurd hx hne
      · exact h
    · rw [if_neg hx]
      rcases List.mem_cons.mp hy with rfl | h
      · exact List.mem_cons_self _ _
      · exact List.mem_cons_of_mem _ (ih h hne)

lemma removeFirst_subset :
    ∀ {l : List (ℝ × Node)} {e y : ℝ × Node}, y ∈ removeFirst l e → y ∈ l := by
  intro l
  induction l with
  | nil => intro e y h; rw [removeFirst] at h; simp at h
  | cons x xs ih =>
    intro e y h
    rw [removeFirst] at h
    by_cases hx : x = e
    · rw [if_pos hx] at h
      exact List.mem_cons_of_mem _ h
    · rw [if_neg hx] at h
      rcases List.mem_cons.mp h with rfl | h'
      · exact List.mem_cons_self _ _
      · exact List.mem_cons_of_mem _ (ih h')

lemma removeFirst_length :
    ∀ {l : List (ℝ × Node)} {e : ℝ × Node}, e ∈ l →
      (removeFirst l e).length + 1 = l.length := by
  intro l
  induction l with
  | nil => intro e h; simp at h
  | cons x xs ih =>
    intro e he
    rw [removeFirst]
    by_cases hx : x = e
    · rw [if_pos hx]; rfl
    · rw [if_neg hx]
      rcases List.mem_cons.mp he with rfl | h
      · exact absurd rfl hx
      · rw [List.length_cons, List.length_cons, ih h]

lemma popMin_none_iff {l : List (ℝ × Node)} : popMin l = none ↔ l = [] := by
  rw [popMin]
  cases hm : minEntry l with
  | none => simpa using minEntry_eq_none_iff.mp hm
  | some m =>
    simp only []
    constructor
    · intro h; exact absurd h (by simp)
    · intro h; subst h; simp [minEntry] at hm

lemma popMin_some_inv {l rest : List (ℝ × Node)} {e : ℝ × Node}
    (h : popMin l = some (e, rest)) : e ∈ l ∧ rest = removeFirst l e := by
  rw [popMin] at h
  cases hm : minEntry l with
  | none => rw [hm] at h; simp at h
  | some m =>
    rw [hm] at h
    simp only [Option.some_inj, Prod.mk.injEq] at h
    obtain ⟨rfl, rfl⟩ := h
    exact ⟨minEntry_mem hm, rfl⟩

/-! ### Predecessor link lemmas -/

lemma prevGet_cons_self (pl : List (Node × Option Node)) (k u : Node) :
    prevGet ((k, some u) :: pl) k = some u := by
  rw [prevGet, lookupD_cons_self]

lemma prevGet_cons_ne (pl : List (Node × Option Node)) {n k : Node} (v : Option Node)
    (h : n ≠ k) : prevGet ((k, v) :: pl) n = prevGet pl n := by
  rw [prevGet, lookupD_cons_ne _ _ h, prevGet]

lemma prevGet_isSome {pl : List (Node × Option Node)} {n u : Node}
    (h : prevGet pl n = some u) : (lookupD pl n).isSome := by
  rw [prevGet] at h
  cases hl : lookupD pl n with
  | none => rw [hl] at h; simp at h
  | some v => simp

/-! ### Chain rewiring lemmas -/

lemma Chain.override_of_newkey {pl : List (Node × Option Node)} {s nb current : Node}
    (G : List (Node × ℝ))
    (hdom : ∀ n u, prevGet pl n = some u → (lookupD G n).isSome)
    (hnb : lookupD G nb = none) {m : Node} (h : Chain pl s m) :
    Chain ((nb, some current) :: pl) s m := by
  induction h with
  | base => exact Chain.base
  | step hlink hch ih =>
    rename_i n u
    have hn : n ≠ nb := by
      intro he
      have := hdom n u hlink
      rw [he, hnb] at this
      simp at this
    exact Chain.step (by rw [prevGet_cons_ne _ _ hn]; exact hlink) ih

lemma Chain.override_of_bound {M : Map} {pl : List (Node × Option Node)}
    {s nb current : Node} {G : List (Node × ℝ)} (B : ℝ)
    (hval : ∀ n u, prevGet pl n = some u → ∃ gn gu d, lookupD G n = some gn ∧
      lookupD G u = some gu ∧ euc_dist M u n = some d ∧ gu + d ≤ gn)
    (hbig : ∀ gnb, lookupD G nb = some gnb → B < gnb) :
    ∀ {m : Node}, Chain pl s m → ∀ gm, lookupD G m = some gm → gm ≤ B →
      Chain ((nb, some current) :: pl) s m := by
  intro m h
  induction h with
  | base => intro gm _ _; exact Chain.base
  | step hlink hch ih =>
    rename_i n u
    intro gn hgn hle
    have hn : n ≠ nb := by
      intro he
      have := hbig gn (he ▸ hgn)
      linarith
    obtain ⟨gn', gu, d, hgn', hgu, hd, hsum⟩ := hval n u hlink
    rw [hgn] at hgn'
    obtain rfl := Option.some_inj.mp hgn'
    have hdpos := euc_dist_nonneg hd
    have hugu : gu ≤ B := by linarith
    exact Chain.step (by rw [prevGet_cons_ne _ _ hn]; exact hlink) (ih gu hgu hugu)

lemma Chain.reroute {pl : List (Node × Option Node)} {s nb current : Node}
    (hnb : Chain ((nb, some current) :: pl) s nb) :
    ∀ {m : Node}, Chain pl s m → Chain ((nb, some current) :: pl) s m := by
  intro m h
  induction h with
  | base => exact Chain.base
  | step hlink hch ih =>
    rename_i n u
    by_cases hn : n = nb
    · exact hn ▸ hnb
    · exact Chain.step (by rw [prevGet_cons_ne _ _ hn]; exact hlink) ih

/-! ### Inversion of one relaxation step -/

lemma lookupD_some_mem_keys {α : Type _} {l : List (Node × α)} {n : Node} {v : α}
    (h : lookupD l n = some v) : n ∈ l.map Prod.fst :=
  (lookupD_isSome_iff_mem l n).mp (by simp [h])

lemma relaxOne_inv {M : Map} {H : List (Node × ℝ)} {current nb : Node} {st st' : SPState}
    (h : relaxOne M H current st nb = some st') :
    ∃ gc d, lookupD st.G current = some gc ∧ euc_dist M current nb = some d ∧
      ((∃ gn, lookupD st.G nb = some gn ∧ ¬(gc + d < gn) ∧ st' = st) ∨
       (∃ hn, lookupD H nb = some hn ∧ nb ≠ current ∧
         (lookupD st.G nb = none ∨ ∃ gn, lookupD st.G nb = some gn ∧ gc + d < gn) ∧
         st' = ⟨(gc + d + hn, nb) :: st.frontier, (nb, gc + d) :: st.G,
           (nb, some current) :: st.prev⟩)) := by
  cases hgc : lookupD st.G current with
  | none => rw [relaxOne, hgc] at h; exact absurd h (by simp)
  | some gc =>
    cases hd : euc_dist M current nb with
    | none => rw [relaxOne, hgc, hd] at h; exact absurd h (by simp)
    | some d =>
      refine ⟨gc, d, rfl, rfl, ?_⟩
      have hd0 : 0 ≤ d := euc_dist_nonneg hd
      cases hgn : lookupD st.G nb with
      | some gn =>
        by_cases hlt : gc + d < gn
        · cases hhn : lookupD H nb with
          | none =>
            rw [relaxOne, hgc, hd] at h
            simp only [hgn, if_pos hlt, hhn] at h
            exact absurd h (by simp)
          | some hn =>
            rw [relaxOne, hgc, hd] at h
            simp only [hgn, if_pos hlt, hhn, Option.some_inj] at h
            refine Or.inr ⟨hn, rfl, ?_, Or.inr ⟨gn, rfl, hlt⟩, h.symm⟩
            intro he
            rw [he, hgc] at hgn
            obtain rfl := Option.some_inj.mp hgn
            linarith
        · rw [relaxOne, hgc, hd] at h
          simp only [hgn, if_neg hlt, Option.some_inj] at h
          exact Or.inl ⟨gn, rfl, hlt, h.symm⟩
      | none =>
        cases hhn : lookupD H nb with
        | none =>
          rw [relaxOne, hgc, hd] at h
          simp only [hgn, hhn] at h
          exact absurd h (by simp)
        | some hn =>
          rw [relaxOne, hgc, hd] at h
          simp only [hgn, hhn, Option.some_inj] at h
          refine Or.inr ⟨hn, rfl, ?_, Or.inl rfl, h.symm⟩
          intro he
          rw [he, hgc] at hgn
          exact absurd hgn (by simp)

/-! ### The termination measure -/

lemma gKeys_mem_iff (st : SPState) (n : Node) :
    n ∈ gKeys st ↔ (lookupD st.G n).isSome := by
  rw [gKeys, List.mem_toFinset, lookupD_isSome_iff_mem]

lemma unseen_eq_of_keys {M : Map} {st st' : SPState}
    (h : ∀ n, (lookupD st'.G n).isSome ↔ (lookupD st.G n).isSome) :
    unseen M st' = unseen M st := by
  rw [unseen, unseen]
  congr 1
  apply Finset.filter_congr
  intro n _
  have := h n
  constructor <;> intro hh <;> simp only [Option.isNone_iff_eq_none] at hh ⊢ <;>
    rcases hi : lookupD st.G n with _ | v <;> rcases hi' : lookupD st'.G n with _ | v' <;>
      simp [hi, hi'] at this hh ⊢

lemma unseen_mono {M : Map} {st st' : SPState}
    (h : ∀ n, (lookupD st.G n).isSome → (lookupD st'.G n).isSome) :
    unseen M st' ≤ unseen M st := by
  apply Finset.card_le_card
  intro n hn
  rw [Finset.mem_filter] at hn ⊢
  refine ⟨hn.1, ?_⟩
  have h2 := hn.2
  rcases hi : lookupD st.G n with _ | v
  · simp
  · have := h n (by simp [hi])
    rcases hi' : lookupD st'.G n with _ | v'
    · rw [hi'] at this; simp at this
    · rw [hi'] at h2; simp at h2

lemma unseen_lt_of_new {M : Map} {st st' : SPState} {nb : Node}
    (hmem : nb ∈ nodesList M)
    (hnone : lookupD st.G nb = none)
    (hsome : (lookupD st'.G nb).isSome)
    (h : ∀ n, (lookupD st.G n).isSome → (lookupD st'.G n).isSome) :
    unseen M st' < unseen M st := by
  apply Finset.card_lt_card
  rw [Finset.ssubset_iff_of_subset]
  · refine ⟨nb, ?_, ?_⟩
    · rw [Finset.mem_filter]
      exact ⟨by simpa using hmem, by simp [hnone]⟩
    · rw [Finset.mem_filter]
      rintro ⟨_, h2⟩
      rw [Option.isNone_iff_eq_none] at h2
      rw [h2] at hsome
      simp at hsome
  · intro n hn
    rw [Finset.mem_filter] at hn ⊢
    refine ⟨hn.1, ?_⟩
    have h2 := hn.2
    rcases hi : lookupD st.G n with _ | v
    · simp
    · have := h n (by simp [hi])
      rcases hi' : lookupD st'.G n with _ | v'
      · rw [hi'] at this; simp at this
      · rw [hi'] at h2; simp at h2

lemma mu2_lt_of_relax {M : Map} {s : Node} {st st' : SPState} {nb : Node} {gn gt : ℝ}
    (hG : st'.G = (nb, gt) :: st.G)
    (hnb : lookupD st.G nb = some gn) (hlt : gt < gn) (hwc : gt ∈ WalkCosts M s nb) :
    mu2 M s st' < mu2 M s st := by
  have hkeys : gKeys st' = gKeys st := by
    rw [gKeys, gKeys, hG]
    simp only [List.map_cons, List.toFinset_cons]
    exact Finset.insert_eq_self.mpr ((gKeys_mem_iff st nb).mpr (by simp [hnb]))
  rw [mu2, mu2, hkeys]
  apply Finset.sum_lt_sum
  · intro m hm
    by_cases hmnb : m = nb
    · subst hmnb
      have hl' : lookupD st'.G m = some gt := by rw [hG, lookupD_cons_self]
      rw [hl', hnb]
      apply Set.ncard_le_ncard
      · intro c hc
        obtain ⟨hc1, hc2⟩ := hc
        exact ⟨hc1, by simpa using lt_trans hc2 hlt⟩
      · exact Set.Finite.subset (walkCosts_lt_finite M s m gn) (fun c hc => hc)
    · have hl' : lookupD st'.G m = lookupD st.G m := by
        rw [hG, lookupD_cons_ne _ _ hmnb]
      rw [hl']
  · refine ⟨nb, (gKeys_mem_iff st nb).mpr (by simp [hnb]), ?_⟩
    have hl' : lookupD st'.G nb = some gt := by rw [hG, lookupD_cons_self]
    rw [hl', hnb]
    simp only [Option.getD_some]
    apply Set.ncard_lt_ncard
    · constructor
      · intro c hc
        exact ⟨hc.1, lt_trans hc.2 hlt⟩
      · intro hsub
        have : gt ∈ {c | c ∈ WalkCosts M s nb ∧ c < gt} := hsub ⟨hwc, hlt⟩
        exact absurd this.2 (lt_irrefl gt)
    · exact walkCosts_lt_finite M s nb gn

/-! ### Composition of relaxation facts -/

lemma RelaxFacts.id_of_eq {M : Map} {s : Node} {st st' : SPState} (h : st' = st) :
    RelaxFacts M s st st' := by
  subst h
  exact
    { keysMono := fun n hn => hn
      valMono := fun n v v' h1 h2 => by rw [h1] at h2; exact (Option.some_inj.mp h2).symm.le
      frontMono := fun e he => he
      changeFront := fun n v v' h1 h2 h3 => by
        rw [h1] at h2
        obtain rfl := Option.some_inj.mp h2
        exact absurd h3 (lt_irrefl v)
      newFront := fun n h1 h2 => by rw [h1] at h2; simp at h2
      meas := Or.inr (Or.inl rfl) }

lemma RelaxFacts.trans {M : Map} {s : Node} {st sta st' : SPState}
    (h1 : RelaxFacts M s st sta) (h2 : RelaxFacts M s sta st') :
    RelaxFacts M s st st' := by
  refine ⟨?_, ?_, ?_, ?_, ?_, ?_⟩
  · exact fun n hn => h2.keysMono n (h1.keysMono n hn)
  · intro n v v' hv hv'
    have hmid := h1.keysMono n (by simp [hv])
    obtain ⟨va, hva⟩ := Option.isSome_iff_exists.mp hmid
    exact le_trans (h2.valMono n va v' hva hv') (h1.valMono n v va hv hva)
  · exact fun e he => h2.frontMono e (h1.frontMono e he)
  · intro n v v' hv hv' hlt
    have hmid := h1.keysMono n (by simp [hv])
    obtain ⟨va, hva⟩ := Option.isSome_iff_exists.mp hmid
    rcases lt_or_eq_of_le (h1.valMono n v va hv hva) with h | h
    · obtain ⟨e, he, he2⟩ := h1.changeFront n v va hv hva h
      exact ⟨e, h2.frontMono e he, he2⟩
    · exact h2.changeFront n va v' hva hv' (h ▸ hlt)
  · intro n hnone hsome
    cases hmid : lookupD sta.G n with
    | none => exact h2.newFront n hmid hsome
    | some va =>
      obtain ⟨e, he, he2⟩ := h1.newFront n hnone (by simp [hmid])
      exact ⟨e, h2.frontMono e he, he2⟩
  · rcases h1.meas with ha | ha | ⟨ha1, ha2⟩
    · exact Or.inl (lt_of_le_of_lt (unseen_mono h2.keysMono) ha)
    · rw [ha] at h2
      exact h2.meas
    · rcases h2.meas with hb | hb | ⟨hb1, hb2⟩
      · exact Or.inl (lt_of_lt_of_le hb (le_of_eq ha1))
      · rw [hb]
        exact Or.inr (Or.inr ⟨ha1, ha2⟩)
      · exact Or.inr (Or.inr ⟨hb1.trans ha1, hb2.trans ha2⟩)

/-! ### Preservation of the invariant by one relaxation -/

lemma relaxOne_pres {M : Map} {s : Node} {H : List (Node × ℝ)} {current nb : Node}
    {st st' : SPState}
    (hInv : Inv M s H st) (hedge : edgeTo M current nb)
    (hHK : H.map Prod.fst = nodesList M)
    (h : relaxOne M H current st nb = some st') :
    Inv M s H st' ∧ RelaxFacts M s st st' ∧
    lookupD st'.G current = lookupD st.G current ∧
    (∃ d gc gv, euc_dist M current nb = some d ∧ lookupD st'.G current = some gc ∧
      lookupD st'.G nb = some gv ∧ gv ≤ gc + d) := by
  obtain ⟨gc, d, hgc, hd, hcase⟩ := relaxOne_inv h
  have hd0 : 0 ≤ d := euc_dist_nonneg hd
  have hgc0 : 0 ≤ gc := (hInv.gval current gc hgc).1
  rcases hcase with ⟨gn, hgn, hnlt, rfl⟩ | ⟨hn, hhn, hnecur, hupd, rfl⟩
  · exact ⟨hInv, RelaxFacts.id_of_eq rfl, rfl,
      ⟨d, gc, gn, hd, hgc, hgn, not_lt.mp hnlt⟩⟩
  · -- the update case; name the new state components
    have hwc : gc + d ∈ WalkCosts M s nb :=
      WalkCosts.step (hInv.gval current gc hgc).2 hedge hd
    have hnbs : nb ≠ s := by
      intro he
      subst he
      rcases hupd with hnone | ⟨gn, hgn, hlt⟩
      · rw [hInv.gstart] at hnone; exact absurd hnone (by simp)
      · rw [hInv.gstart] at hgn
        obtain rfl := Option.some_inj.mp hgn
        linarith
    have hGnb : lookupD ((nb, gc + d) :: st.G) nb = some (gc + d) := lookupD_cons_self _ _ _
    have hGcur : lookupD ((nb, gc + d) :: st.G) current = lookupD st.G current :=
      lookupD_cons_ne st.G _ (fun he => hnecur he.symm)
    have hcne : ∀ {n : Node}, n ≠ nb →
        lookupD ((nb, gc + d) :: st.G) n = lookupD st.G n := by
      intro n hne; exact lookupD_cons_ne st.G _ hne
    have hkeysMono : ∀ n, (lookupD st.G n).isSome →
        (lookupD ((nb, gc + d) :: st.G) n).isSome := by
      intro n hns
      by_cases hn2 : n = nb
      · subst hn2; simp [hGnb]
      · rw [hcne hn2]; exact hns
    have hchaincur : Chain ((nb, some current) :: st.prev) s current := by
      rcases hupd with hnone | ⟨gn, hgn, hlt⟩
      · refine Chain.override_of_newkey st.G ?_ hnone
          (hInv.chains current (by simp [hgc]))
        intro n u hl
        obtain ⟨gn', gu', d', h1, h2, h3, h4⟩ := (hInv.linkOk n u hl).2.2
        simp [h1]
      · refine Chain.override_of_bound gc
          (fun n u hl => (hInv.linkOk n u hl).2.2) ?_
          (hInv.chains current (by simp [hgc])) gc hgc (le_refl gc)
        intro gnb hgnb
        rw [hgn] at hgnb
        obtain rfl := Option.some_inj.mp hgnb
        linarith
    have hchainnb : Chain ((nb, some current) :: st.prev) s nb :=
      Chain.step (prevGet_cons_self _ _ _) hchaincur
    refine ⟨⟨?_, ?_, ?_, ?_, ?_, ?_, ?_, ?_⟩, ⟨hkeysMono, ?_, ?_, ?_, ?_, ?_⟩, hGcur,
      ⟨d, gc, gc + d, hd, by rw [show lookupD (⟨(gc + d + hn, nb) :: st.frontier,
        (nb, gc + d) :: st.G, (nb, some current) :: st.prev⟩ : SPState).G current =
          lookupD ((nb, gc + d) :: st.G) current from rfl, hGcur]; exact hgc,
        hGnb, le_refl _⟩⟩
    -- Inv.gstart
    · show lookupD ((nb, gc + d) :: st.G) s = some 0
      rw [hcne (fun he => hnbs he.symm)]
      exact hInv.gstart
    -- Inv.gval
    · intro n v hv
      by_cases hn2 : n = nb
      · subst hn2
        rw [hGnb] at hv
        obtain rfl := Option.some_inj.mp hv.symm
        exact ⟨by linarith, hwc⟩
      · rw [show lookupD (⟨(gc + d + hn, nb) :: st.frontier, (nb, gc + d) :: st.G,
          (nb, some current) :: st.prev⟩ : SPState).G n = lookupD ((nb, gc + d) :: st.G) n
          from rfl, hcne hn2] at hv
        exact hInv.gval n v hv
    -- Inv.frontierG
    · intro e he
      rcases List.mem_cons.mp he with rfl | he'
      · simp [hGnb]
      · exact hkeysMono e.2 (hInv.frontierG e he')
    -- Inv.gsub
    · intro n hns
      by_cases hn2 : n = nb
      · subst hn2; simp [hhn]
      · rw [show lookupD (⟨(gc + d + hn, nb) :: st.frontier, (nb, gc + d) :: st.G,
          (nb, some current) :: st.prev⟩ : SPState).G n = lookupD ((nb, gc + d) :: st.G) n
          from rfl, hcne hn2] at hns
        exact hInv.gsub n hns
    -- Inv.linkOk
    · intro n u hl
      by_cases hn2 : n = nb
      · rw [show prevGet (⟨(gc + d + hn, nb) :: st.frontier, (nb, gc + d) :: st.G,
          (nb, some current) :: st.prev⟩ : SPState).prev n =
          prevGet ((nb, some current) :: st.prev) n from rfl, hn2,
          prevGet_cons_self] at hl
        obtain rfl := Option.some_inj.mp hl
        rw [hn2]
        exact ⟨hnbs, hedge, gc + d, gc, d, hGnb, by rw [hGcur]; exact hgc, hd, le_refl _⟩
      · rw [show prevGet (⟨(gc + d + hn, nb) :: st.frontier, (nb, gc + d) :: st.G,
          (nb, some current) :: st.prev⟩ : SPState).prev n =
          prevGet ((nb, some current) :: st.prev) n from rfl,
          prevGet_cons_ne _ _ hn2] at hl
        obtain ⟨hns', hedge', gn', gu', d', h1, h2, h3, h4⟩ := hInv.linkOk n u hl
        refine ⟨hns', hedge', gn', ?_⟩
        by_cases hu : u = nb
        · subst hu
          rcases hupd with hnone | ⟨gn2, hgn2, hlt2⟩
          · rw [h2] at hnone; exact absurd hnone (by simp)
          · rw [hgn2] at h2
            obtain rfl := Option.some_inj.mp h2
            exact ⟨gc + d, d', by rw [hcne hn2]; exact h1, hGnb, h3, by linarith⟩
        · exact ⟨gu', d', by rw [hcne hn2]; exact h1, by rw [hcne hu]; exact h2, h3, h4⟩
    -- Inv.prevStart
    · show lookupD ((nb, some current) :: st.prev) s = some none
      rw [lookupD_cons_ne st.prev _ (fun he => hnbs he.symm)]
      exact hInv.prevStart
    -- Inv.chains
    · intro n hns
      by_cases hn2 : n = nb
      · subst hn2; exact hchainnb
      · rw [show lookupD (⟨(gc + d + hn, nb) :: st.frontier, (nb, gc + d) :: st.G,
          (nb, some current) :: st.prev⟩ : SPState).G n = lookupD ((nb, gc + d) :: st.G) n
          from rfl, hcne hn2] at hns
        exact Chain.reroute hchainnb (hInv.chains n hns)
    -- Inv.domEq
    · intro n
      by_cases hn2 : n = nb
      · subst hn2
        constructor <;> intro <;> simp [lookupD_cons_self, hGnb]
      · rw [show lookupD (⟨(gc + d + hn, nb) :: st.frontier, (nb, gc + d) :: st.G,
          (nb, some current) :: st.prev⟩ : SPState).prev n =
          lookupD ((nb, some current) :: st.prev) n from rfl,
          lookupD_cons_ne st.prev _ hn2,
          show lookupD (⟨(gc + d + hn, nb) :: st.frontier, (nb, gc + d) :: st.G,
          (nb, some current) :: st.prev⟩ : SPState).G n = lookupD ((nb, gc + d) :: st.G) n
          from rfl, hcne hn2]
        exact hInv.domEq n
    -- RelaxFacts.valMono
    · intro n v v' hv hv'
      by_cases hn2 : n = nb
      · subst hn2
        rw [hGnb] at hv'
        obtain rfl := Option.some_inj.mp hv'.symm
        rcases hupd with hnone | ⟨gn2, hgn2, hlt2⟩
        · rw [hv] at hnone; exact absurd hnone (by simp)
        · rw [hgn2] at hv
          obtain rfl := Option.some_inj.mp hv.symm
          linarith
      · rw [hcne hn2] at hv'
        rw [hv] at hv'
        exact (Option.some_inj.mp hv').symm.le
    -- RelaxFacts.frontMono
    · exact fun e he => List.mem_cons_of_mem _ he
    -- RelaxFacts.changeFront
    · intro n v v' hv hv' hlt
      by_cases hn2 : n = nb
      · exact ⟨(gc + d + hn, nb), List.mem_cons_self _ _, hn2.symm⟩
      · rw [hcne hn2] at hv'
        rw [hv] at hv'
        obtain rfl := Option.some_inj.mp hv'
        exact absurd hlt (lt_irrefl v)
    -- RelaxFacts.newFront
    · intro n hnone hsome
      by_cases hn2 : n = nb
      · exact ⟨(gc + d + hn, nb), List.mem_cons_self _ _, hn2.symm⟩
      · rw [hcne hn2] at hsome
        rw [hnone] at hsome
        simp at hsome
    -- RelaxFacts.meas
    · rcases hupd with hnone | ⟨gn2, hgn2, hlt2⟩
      · refine Or.inl (unseen_lt_of_new ?_ hnone (by simp [hGnb]) hkeysMono)
        have := lookupD_some_mem_keys hhn
        rwa [hHK] at this
      · refine Or.inr (Or.inr ⟨?_, ?_⟩)
        · apply unseen_eq_of_keys
          intro n
          by_cases hn2 : n = nb
          · subst hn2
            simp [hGnb, hgn2]
          · rw [show lookupD (⟨(gc + d + hn, nb) :: st.frontier, (nb, gc + d) :: st.G,
              (nb, some current) :: st.prev⟩ : SPState).G n =
              lookupD ((nb, gc + d) :: st.G) n from rfl, hcne hn2]
        · exact mu2_lt_of_relax rfl hgn2 hlt2 hwc

/-! ### The neighbor fold of one loop iteration -/

lemma expand_fold {M : Map} {s : Node} {H : List (Node × ℝ)} {current : Node} :
    ∀ (nbrs : List Node) (st st' : SPState), Inv M s H st →
      (∀ nb ∈ nbrs, edgeTo M current nb) →
      H.map Prod.fst = nodesList M →
      List.foldlM (relaxOne M H current) st nbrs = some st' →
      Inv M s H st' ∧ RelaxFacts M s st st' ∧
      lookupD st'.G current = lookupD st.G current ∧
      ∀ nb ∈ nbrs, ∃ d gc gv, euc_dist M current nb = some d ∧
        lookupD st'.G current = some gc ∧ lookupD st'.G nb = some gv ∧ gv ≤ gc + d := by
  intro nbrs
  induction nbrs with
  | nil =>
    intro st st' hInv hedge hHK h
    rw [List.foldlM_nil] at h
    obtain rfl := Option.some_inj.mp h
    exact ⟨hInv, RelaxFacts.id_of_eq rfl, rfl, by simp⟩
  | cons nb rest ih =>
    intro st st' hInv hedge hHK h
    rw [List.foldlM_cons] at h
    cases h1 : relaxOne M H current st nb with
    | none => rw [h1] at h; simp at h
    | some st1 =>
      rw [h1] at h
      simp only [Option.bind_eq_bind, Option.some_bind] at h
      obtain ⟨hInv1, hRF1, hcur1, hcl1⟩ :=
        relaxOne_pres hInv (hedge nb (List.mem_cons_self _ _)) hHK h1
      obtain ⟨hInv', hRF2, hcur2, hrest⟩ :=
        ih st1 st' hInv1 (fun m hm => hedge m (List.mem_cons_of_mem _ hm)) hHK h
      refine ⟨hInv', hRF1.trans hRF2, hcur2.trans hcur1, ?_⟩
      intro m hm
      rcases List.mem_cons.mp hm with rfl | hm'
      · obtain ⟨d, gc, gv, hd, hgc, hgv, hle⟩ := hcl1
        have hgc' : lookupD st'.G current = some gc := by rw [hcur2]; exact hgc
        have hsome : (lookupD st'.G m).isSome := hRF2.keysMono m (by simp [hgv])
        obtain ⟨gv', hgv'⟩ := Option.isSome_iff_exists.mp hsome
        have hle' : gv' ≤ gv := hRF2.valMono m gv gv' hgv hgv'
        exact ⟨d, gc, gv', hd, hgc', hgv', by linarith⟩
      · exact hrest m hm'

/-! ### One full loop iteration -/

lemma step_next_inv {M : Map} {s : Node} {H : List (Node × ℝ)} {goal : Node}
    {st st' : SPState}
    (hInv : Inv M s H st) (hCl : ClosedInv M st) (hHK : H.map Prod.fst = nodesList M)
    (h : step M H goal st = .next st') :
    Inv M s H st' ∧ ClosedInv M st' ∧
    (∀ n, (lookupD st.G n).isSome → (lookupD st'.G n).isSome) ∧
    (∀ n v v', lookupD st.G n = some v → lookupD st'.G n = some v' → v' ≤ v) ∧
    (unseen M st' < unseen M st ∨
      (unseen M st' = unseen M st ∧ (mu2 M s st' < mu2 M s st ∨
        (mu2 M s st' = mu2 M s st ∧ st'.frontier.length < st.frontier.length)))) := by
  cases hpop : popMin st.frontier with
  | none => rw [step] at h; simp only [hpop] at h; cases h
  | some pr =>
    obtain ⟨e, rest⟩ := pr
    obtain ⟨heMem, hrest⟩ := popMin_some_inv hpop
    cases hexp : expand M H e.2 ⟨rest, st.G, st.prev⟩ with
    | none => rw [step] at h; simp only [hpop, hexp] at h; cases h
    | some st2 =>
      rw [step] at h
      simp only [hpop, hexp, StepRes.next.injEq] at h
      subst h
      rw [expand] at hexp
      cases hroads : lookupD M.roads e.2 with
      | none => rw [hroads] at hexp; exact absurd hexp (by simp)
      | some nbrs =>
        rw [hroads] at hexp
        have hInv1 : Inv M s H ⟨rest, st.G, st.prev⟩ :=
          { gstart := hInv.gstart
            gval := hInv.gval
            frontierG := fun f hf => hInv.frontierG f (removeFirst_subset (hrest ▸ hf))
            gsub := hInv.gsub
            linkOk := hInv.linkOk
            prevStart := hInv.prevStart
            chains := hInv.chains
            domEq := hInv.domEq }
        have hedge : ∀ nb ∈ nbrs, edgeTo M e.2 nb := fun nb hnb => ⟨nbrs, hroads, hnb⟩
        obtain ⟨hInv', hRF, hcur, hcl⟩ := expand_fold nbrs _ _ hInv1 hedge hHK hexp
        refine ⟨hInv', ?_, hRF.keysMono, hRF.valMono, ?_⟩
        · -- the closure invariant
          intro n hns
          by_cases hn2 : n = e.2
          · subst hn2
            exact Or.inl ⟨nbrs, hroads, fun v hv => hcl v hv⟩
          · cases hold : lookupD st.G n with
            | none =>
              obtain ⟨f, hf, hf2⟩ := hRF.newFront n hold hns
              exact Or.inr ⟨f, hf, hf2⟩
            | some v =>
              obtain ⟨v', hv'⟩ := Option.isSome_iff_exists.mp hns
              rcases lt_or_eq_of_le (hRF.valMono n v v' hold hv') with hlt | heq
              · obtain ⟨f, hf, hf2⟩ := hRF.changeFront n v v' hold hv' hlt
                exact Or.inr ⟨f, hf, hf2⟩
              · rcases hCl n (by simp [hold]) with ⟨l, hla, hlb⟩ | ⟨f, hf, hf2⟩
                · refine Or.inl ⟨l, hla, ?_⟩
                  intro w hw
                  obtain ⟨d, gn, gw, hd, hgn, hgw, hle⟩ := hlb w hw
                  rw [hold] at hgn
                  obtain rfl := Option.some_inj.mp hgn
                  have hsw : (lookupD st2.G w).isSome := hRF.keysMono w (by simp [hgw])
                  obtain ⟨gw', hgw'⟩ := Option.isSome_iff_exists.mp hsw
                  have := hRF.valMono w gw gw' hgw hgw'
                  refine ⟨d, v', gw', hd, hv', hgw', ?_⟩
                  rw [heq]
                  linarith
                · have hfne : f ≠ e := by
                    intro hfe
                    rw [hfe] at hf2
                    exact hn2 hf2.symm
                  have hfr : f ∈ rest := by
                    rw [hrest]; exact mem_removeFirst_of_ne hf hfne
                  exact Or.inr ⟨f, hRF.frontMono f hfr, hf2⟩
        · -- the measure
          have hlen : rest.length + 1 = st.frontier.length := hrest ▸ removeFirst_length heMem
          rcases hRF.meas with hm | hm | ⟨hm1, hm2⟩
          · exact Or.inl hm
          · rw [hm]
            refine Or.inr ⟨rfl, Or.inr ⟨rfl, ?_⟩⟩
            show rest.length < st.frontier.length
            omega
          · exact Or.inr ⟨hm1, Or.inl hm2⟩

/-! ### Termination of the main loop -/

lemma loop_halts {M : Map} {s : Node} {H : List (Node × ℝ)} (goal : Node)
    (hHK : H.map Prod.fst = nodesList M) :
    ∀ st, Inv M s H st → ClosedInv M st →
      ∃ k, loopDone (runFrom M H goal k st) := by
  have hwf : WellFounded (Prod.Lex (· < · : ℕ → ℕ → Prop)
      (Prod.Lex (· < · : ℕ → ℕ → Prop) (· < · : ℕ → ℕ → Prop))) :=
    WellFounded.prod_lex (Nat.lt_wfRel.wf) (WellFounded.prod_lex Nat.lt_wfRel.wf Nat.lt_wfRel.wf)
  have main : ∀ t : ℕ × ℕ × ℕ, ∀ st, Inv M s H st → ClosedInv M st →
      (unseen M st, mu2 M s st, st.frontier.length) = t →
      ∃ k, loopDone (runFrom M H goal k st) := by
    intro t
    induction t using hwf.induction with
    | _ t ih =>
      intro st hInv hCl ht
      cases hstep : step M H goal st with
      | halt => exact ⟨1, by rw [runFrom, hstep]; trivial⟩
      | error => exact ⟨1, by rw [runFrom, hstep]; trivial⟩
      | next st' =>
        obtain ⟨hInv', hCl', _, _, hmeas⟩ := step_next_inv hInv hCl hHK hstep
        have hdec : Prod.Lex (· < ·) (Prod.Lex (· < ·) (· < ·))
            (unseen M st', mu2 M s st', st'.frontier.length)
            (unseen M st, mu2 M s st, st.frontier.length) := by
          rcases hmeas with hm | ⟨hm1, hm | ⟨hma, hmb⟩⟩
          · exact Prod.Lex.left _ _ hm
          · rw [hm1]
            exact Prod.Lex.right _ (Prod.Lex.left _ _ hm)
          · rw [hm1, hma]
            exact Prod.Lex.right _ (Prod.Lex.right _ hmb)
        obtain ⟨k, hk⟩ := ih _ (ht ▸ hdec) st' hInv' hCl' rfl
        exact ⟨k + 1, by rw [runFrom, hstep]; exact hk⟩
  intro st hInv hCl
  exact main _ st hInv hCl rfl

/-! ### Run-level lemmas -/

lemma step_halt_iff {M : Map} {H : List (Node × ℝ)} {goal : Node} {st : SPState} :
    step M H goal st = .halt ↔ st.frontier = [] := by
  constructor
  · intro h
    cases hpop : popMin st.frontier with
    | none => exact popMin_none_iff.mp hpop
    | some pr =>
      obtain ⟨e, rest⟩ := pr
      rw [step] at h
      simp only [hpop] at h
      cases hexp : expand M H e.2 ⟨rest, st.G, st.prev⟩ with
      | none => rw [hexp] at h; cases h
      | some st2 => rw [hexp] at h; cases h
  · intro h
    rw [step, show popMin st.frontier = none from popMin_none_iff.mpr h]

lemma runFrom_done_succ {M : Map} {H : List (Node × ℝ)} {goal : Node} :
    ∀ {k : ℕ} {st : SPState}, loopDone (runFrom M H goal k st) →
      runFrom M H goal (k + 1) st = runFrom M H goal k st := by
  intro k
  induction k with
  | zero => intro st h; exact absurd h (by rw [runFrom]; exact fun hh => hh)
  | succ k ih =>
    intro st h
    rw [runFrom] at h ⊢
    cases hstep : step M H goal st with
    | halt => rw [runFrom, hstep]
    | error => rw [runFrom, hstep]
    | next st' =>
      rw [hstep] at h
      rw [runFrom, hstep]
      exact ih h

lemma runFrom_done_mono {M : Map} {H : List (Node × ℝ)} {goal : Node}
    {k j : ℕ} {st : SPState} (hkj : k ≤ j) (h : loopDone (runFrom M H goal k st)) :
    runFrom M H goal j st = runFrom M H goal k st := by
  induction j with
  | zero =>
    rw [Nat.le_zero.mp hkj]
  | succ j ih =>
    rcases Nat.lt_or_ge k (j + 1) with hlt | hge
    · have hj := ih (Nat.lt_succ_iff.mp hlt)
      have : loopDone (runFrom M H goal j st) := by rw [hj]; exact h
      rw [runFrom_done_succ this, hj]
    · rw [Nat.le_antisymm hkj hge]

open Classical in
lemma runResult_eq_of_finished {M : Map} {H : List (Node × ℝ)} {goal : Node}
    {k : ℕ} {st stF : SPState} (h : runFrom M H goal k st = .finished stF) :
    runResult M H goal st = some (some stF) := by
  have hd : loopDone (runFrom M H goal k st) := by rw [h]; trivial
  have hex : ∃ m, loopDone (runFrom M H goal m st) := ⟨k, hd⟩
  rw [runResult, dif_pos hex]
  have hle : Nat.find hex ≤ k := Nat.find_le hd
  have hspec := Nat.find_spec hex
  have := runFrom_done_mono hle hspec
  rw [h] at this
  rw [← this]

open Classical in
lemma runResult_eq_of_errored {M : Map} {H : List (Node × ℝ)} {goal : Node}
    {k : ℕ} {st : SPState} (h : runFrom M H goal k st = .errored) :
    runResult M H goal st = some none := by
  have hd : loopDone (runFrom M H goal k st) := by rw [h]; trivial
  have hex : ∃ m, loopDone (runFrom M H goal m st) := ⟨k, hd⟩
  rw [runResult, dif_pos hex]
  have hle : Nat.find hex ≤ k := Nat.find_le hd
  have hspec := Nat.find_spec hex
  have := runFrom_done_mono hle hspec
  rw [h] at this
  rw [← this]

lemma runFrom_finished_inv {M : Map} {s : Node} {H : List (Node × ℝ)} {goal : Node}
    (hHK : H.map Prod.fst = nodesList M) :
    ∀ {k : ℕ} {st stF : SPState}, Inv M s H st → ClosedInv M st →
      runFrom M H goal k st = .finished stF →
      Inv M s H stF ∧ ClosedInv M stF ∧ stF.frontier = [] ∧
      (∀ n, (lookupD st.G n).isSome → (lookupD stF.G n).isSome) := by
  intro k
  induction k with
  | zero => intro st stF _ _ h; rw [runFrom] at h; cases h
  | succ k ih =>
    intro st stF hInv hCl h
    rw [runFrom] at h
    cases hstep : step M H goal st with
    | halt =>
      rw [hstep] at h
      simp only [LoopRes.finished.injEq] at h
      subst h
      exact ⟨hInv, hCl, step_halt_iff.mp hstep, fun n hn => hn⟩
    | error => rw [hstep] at h; cases h
    | next st' =>
      rw [hstep] at h
      obtain ⟨hInv', hCl', hkeys, _, _⟩ := step_next_inv hInv hCl hHK hstep
      obtain ⟨h1, h2, h3, h4⟩ := ih hInv' hCl' h
      exact ⟨h1, h2, h3, fun n hn => h4 n (hkeys n hn)⟩

/-! ### Absence of runtime errors on well-formed maps -/

lemma WFMap.roads_spec {M : Map} (h : WFMap M) {n : Node} (hn : n ∈ nodesList M) :
    ∃ l, lookupD M.roads n = some l ∧ ∀ m ∈ l, m ∈ nodesList M := by
  rw [WFMap, wfMapB, List.all_eq_true] at h
  have := h n hn
  cases hl : lookupD M.roads n with
  | none => rw [hl] at this; cases this
  | some l =>
    rw [hl] at this
    simp only [List.all_eq_true] at this
    exact ⟨l, rfl, fun m hm => List.elem_iff.mp (this m hm)⟩

lemma coords_isSome_of_mem {M : Map} {n : Node} (hn : n ∈ nodesList M) :
    (lookupD M.intersections n).isSome := by
  rw [lookupD_isSome_iff_mem]
  exact hn

lemma relaxOne_isSome {M : Map} {H : List (Node × ℝ)} {current nb : Node} {st : SPState}
    (hc : (lookupD st.G current).isSome)
    (hcc : (lookupD M.intersections current).isSome)
    (hnc : (lookupD M.intersections nb).isSome)
    (hhn : (lookupD H nb).isSome) :
    ∃ st1, relaxOne M H current st nb = some st1 := by
  obtain ⟨gc, hgc⟩ := Option.isSome_iff_exists.mp hc
  obtain ⟨pc, hpc⟩ := Option.isSome_iff_exists.mp hcc
  obtain ⟨pn, hpn⟩ := Option.isSome_iff_exists.mp hnc
  obtain ⟨hn, hhn'⟩ := Option.isSome_iff_exists.mp hhn
  have hd : euc_dist M current nb = some (eucRR pc pn) := euc_dist_eq hpc hpn
  rw [← Option.isSome_iff_exists]
  cases hgn : lookupD st.G nb with
  | some gn =>
    by_cases hlt : gc + eucRR pc pn < gn
    · simp only [relaxOne, hgc, hd, hgn, if_pos hlt, hhn', Option.isSome_some]
    · simp only [relaxOne, hgc, hd, hgn, if_neg hlt, Option.isSome_some]
  | none =>
    simp only [relaxOne, hgc, hd, hgn, hhn', Option.isSome_some]

lemma expand_isSome {M : Map} {s : Node} {H : List (Node × ℝ)} {current : Node}
    (hWF : WFMap M) (hHK : H.map Prod.fst = nodesList M)
    (hcur : current ∈ nodesList M) :
    ∀ (nbrs : List Node) (st : SPState), Inv M s H st →
      (lookupD st.G current).isSome →
      (∀ nb ∈ nbrs, nb ∈ nodesList M) →
      (∀ nb ∈ nbrs, edgeTo M current nb) →
      ∃ st', List.foldlM (relaxOne M H current) st nbrs = some st' := by
  intro nbrs
  induction nbrs with
  | nil => intro st _ _ _ _; exact ⟨st, by rw [List.foldlM_nil]; rfl⟩
  | cons nb rest ih =>
    intro st hInv hc hmem hedge
    have hnb : nb ∈ nodesList M := hmem nb (List.mem_cons_self _ _)
    have hH : (lookupD H nb).isSome := by
      rw [lookupD_isSome_iff_mem, hHK]
      exact hnb
    obtain ⟨st1, hst1⟩ := relaxOne_isSome hc (coords_isSome_of_mem hcur)
      (coords_isSome_of_mem hnb) hH
    obtain ⟨hInv1, hRF1, hcur1, _⟩ :=
      relaxOne_pres hInv (hedge nb (List.mem_cons_self _ _)) hHK hst1
    have hc1 : (lookupD st1.G current).isSome := by rw [hcur1]; exact hc
    obtain ⟨st', hst'⟩ := ih st1 hInv1 hc1
      (fun m hm => hmem m (List.mem_cons_of_mem _ hm))
      (fun m hm => hedge m (List.mem_cons_of_mem _ hm))
    refine ⟨st', ?_⟩
    rw [List.foldlM_cons, hst1]
    simp only [Option.bind_eq_bind, Option.some_bind]
    exact hst'

lemma step_no_error {M : Map} {s : Node} {H : List (Node × ℝ)} {goal : Node} {st : SPState}
    (hInv : Inv M s H st) (hHK : H.map Prod.fst = nodesList M) (hWF : WFMap M) :
    step M H goal st ≠ .error := by
  intro h
  cases hpop : popMin st.frontier with
  | none => rw [step] at h; simp only [hpop] at h; cases h
  | some pr =>
    obtain ⟨e, rest⟩ := pr
    obtain ⟨heMem, hrest⟩ := popMin_some_inv hpop
    have hcs : (lookupD st.G e.2).isSome := hInv.frontierG e heMem
    have hcn : e.2 ∈ nodesList M := by
      have := hInv.gsub e.2 hcs
      rw [lookupD_isSome_iff_mem, hHK] at this
      exact this
    obtain ⟨nbrs, hroads, hsub⟩ := hWF.roads_spec hcn
    have hedge : ∀ nb ∈ nbrs, edgeTo M e.2 nb := fun nb hnb => ⟨nbrs, hroads, hnb⟩
    have hInv1 : Inv M s H ⟨rest, st.G, st.prev⟩ :=
      { gstart := hInv.gstart
        gval := hInv.gval
        frontierG := fun f hf => hInv.frontierG f (removeFirst_subset (hrest ▸ hf))
        gsub := hInv.gsub
        linkOk := hInv.linkOk
        prevStart := hInv.prevStart
        chains := hInv.chains
        domEq := hInv.domEq }
    obtain ⟨st', hst'⟩ := expand_isSome hWF hHK hcn nbrs ⟨rest, st.G, st.prev⟩ hInv1 hcs hsub hedge
    rw [step] at h
    simp only [hpop] at h
    rw [show expand M H e.2 ⟨rest, st.G, st.prev⟩ = some st' from by
      rw [expand, hroads]; exact hst'] at h
    cases h

lemma runFrom_not_errored {M : Map} {s : Node} {H : List (Node × ℝ)} {goal : Node}
    (hHK : H.map Prod.fst = nodesList M) (hWF : WFMap M) :
    ∀ (k : ℕ) (st : SPState), Inv M s H st → ClosedInv M st →
      runFrom M H goal k st ≠ .errored := by
  intro k
  induction k with
  | zero => intro st _ _ h; rw [runFrom] at h; cases h
  | succ k ih =>
    intro st hInv hCl h
    rw [runFrom] at h
    cases hstep : step M H goal st with
    | halt => rw [hstep] at h; cases h
    | error => exact step_no_error hInv hHK hWF hstep
    | next st' =>
      rw [hstep] at h
      obtain ⟨hInv', hCl', _, _, _⟩ := step_next_inv hInv hCl hHK hstep
      exact ih st' hInv' hCl' h

/-! ### Initialization lemmas -/

lemma computeH_aux_keys {M : Map} {goal : Node} :
    ∀ {l : List (Node × ℚ × ℚ)} {H : List (Node × ℝ)},
      (l.mapM fun p => match euc_dist M p.1 goal with
        | some d => some (p.1, d)
        | none => none) = some H → H.map Prod.fst = l.map Prod.fst := by
  intro l
  induction l with
  | nil =>
    intro H h
    rw [List.mapM_nil] at h
    obtain rfl := Option.some_inj.mp h
    rfl
  | cons p rest ih =>
    intro H h
    rw [List.mapM_cons] at h
    cases hd : euc_dist M p.1 goal with
    | none => simp only [hd] at h; cases h
    | some d =>
      simp only [hd, Option.bind_eq_bind, Option.some_bind] at h
      cases hrest : rest.mapM fun p => match euc_dist M p.1 goal with
        | some d => some (p.1, d)
        | none => none with
      | none => rw [hrest] at h; cases h
      | some H' =>
        rw [hrest] at h
        simp only [Option.some_bind] at h
        have h2 : some ((p.1, d) :: H') = some H := h
        obtain rfl := Option.some_inj.mp h2
        simp only [List.map_cons]
        rw [ih hrest]

lemma computeH_keys {M : Map} {goal : Node} {H : List (Node × ℝ)}
    (h : computeH M goal = some H) : H.map Prod.fst = nodesList M :=
  computeH_aux_keys h

lemma computeH_aux_lookup {M : Map} {goal : Node} :
    ∀ {l : List (Node × ℚ × ℚ)} {H : List (Node × ℝ)} {n : Node} {hv : ℝ},
      (l.mapM fun p => match euc_dist M p.1 goal with
        | some d => some (p.1, d)
        | none => none) = some H → lookupD H n = some hv →
      euc_dist M n goal = some hv := by
  intro l
  induction l with
  | nil =>
    intro H n hv h hl
    rw [List.mapM_nil] at h
    obtain rfl := Option.some_inj.mp h
    rw [lookupD] at hl
    cases hl
  | cons p rest ih =>
    intro H n hv h hl
    rw [List.mapM_cons] at h
    cases hd : euc_dist M p.1 goal with
    | none => simp only [hd] at h; cases h
    | some d =>
      simp only [hd, Option.bind_eq_bind, Option.some_bind] at h
      cases hrest : rest.mapM fun p => match euc_dist M p.1 goal with
        | some d => some (p.1, d)
        | none => none with
      | none => rw [hrest] at h; cases h
      | some H' =>
        rw [hrest] at h
        simp only [Option.some_bind] at h
        have h2 : some ((p.1, d) :: H') = some H := h
        obtain rfl := Option.some_inj.mp h2
        by_cases hn : n = p.1
        · rw [hn, lookupD_cons_self] at hl
          obtain rfl := Option.some_inj.mp hl
          rw [hn]
          exact hd
        · rw [lookupD_cons_ne _ _ hn] at hl
          exact ih hrest hl

lemma computeH_lookup {M : Map} {goal : Node} {H : List (Node × ℝ)} {n : Node} {hv : ℝ}
    (h : computeH M goal = some H) (hl : lookupD H n = some hv) :
    euc_dist M n goal = some hv :=
  computeH_aux_lookup h hl

lemma computeH_isSome {M : Map} {goal : Node} (hg : goal ∈ nodesList M) :
    ∃ H, computeH M goal = some H := by
  rw [computeH]
  have hgc : (lookupD M.intersections goal).isSome := coords_isSome_of_mem hg
  obtain ⟨pg, hpg⟩ := Option.isSome_iff_exists.mp hgc
  have : ∀ (l : List (Node × ℚ × ℚ)), (∀ p ∈ l, p ∈ M.intersections) →
      ∃ H, (l.mapM fun p => match euc_dist M p.1 goal with
        | some d => some (p.1, d)
        | none => none) = some H := by
    intro l
    induction l with
    | nil => intro _; exact ⟨[], by rw [List.mapM_nil]; rfl⟩
    | cons p rest ih =>
      intro hmem
      have hp : (lookupD M.intersections p.1).isSome := by
        rw [lookupD_isSome_iff_mem]
        exact List.mem_map.mpr ⟨p, hmem p (List.mem_cons_self _ _), rfl⟩
      obtain ⟨pp, hpp⟩ := Option.isSome_iff_exists.mp hp
      obtain ⟨H', hH'⟩ := ih fun q hq => hmem q (List.mem_cons_of_mem _ hq)
      refine ⟨(p.1, eucRR pp pg) :: H', ?_⟩
      rw [List.mapM_cons]
      simp only [euc_dist_eq hpp hpg, hH', Option.bind_eq_bind, Option.some_bind]
      rfl
  exact this M.intersections (fun p hp => hp)

lemma initState_some_inv {M : Map} {s g : Node} {H : List (Node × ℝ)} {st0 : SPState}
    (h : initState M s g = some (H, st0)) :
    computeH M g = some H ∧ ∃ hs0, lookupD H s = some hs0 ∧
      st0 = ⟨[(hs0 + 0, s)], [(s, 0)], [(s, none)]⟩ := by
  rw [initState] at h
  cases hH : computeH M g with
  | none => rw [hH] at h; cases h
  | some H' =>
    rw [hH] at h
    cases hs : lookupD H' s with
    | none => simp only [hs] at h; cases h
    | some hs0 =>
      simp only [hs, Option.some_inj, Prod.mk.injEq] at h
      obtain ⟨rfl, rfl⟩ := h
      exact ⟨rfl, hs0, hs, rfl⟩

lemma prevGet_init (s n : Node) : prevGet [(s, (none : Option Node))] n = none := by
  by_cases hn : n = s
  · rw [hn, prevGet, lookupD_cons_self]
  · rw [prevGet, lookupD_cons_ne _ _ hn, lookupD]

lemma initState_establishes {M : Map} {s g : Node} {H : List (Node × ℝ)} {st0 : SPState}
    (h : initState M s g = some (H, st0)) :
    Inv M s H st0 ∧ ClosedInv M st0 ∧ H.map Prod.fst = nodesList M := by
  obtain ⟨hH, hs0, hlook, rfl⟩ := initState_some_inv h
  have hKeys := computeH_keys hH
  refine ⟨⟨?_, ?_, ?_, ?_, ?_, ?_, ?_, ?_⟩, ?_, hKeys⟩
  · exact lookupD_cons_self _ _ _
  · intro n v hv
    by_cases hn : n = s
    · subst hn
      rw [lookupD_cons_self] at hv
      obtain rfl := Option.some_inj.mp hv.symm
      exact ⟨le_refl 0, WalkCosts.base M n⟩
    · rw [lookupD_cons_ne _ _ hn, lookupD] at hv
      cases hv
  · intro e he
    rcases List.mem_cons.mp he with rfl | he'
    · simp [lookupD_cons_self]
    · simp at he'
  · intro n hn
    by_cases hns : n = s
    · subst hns
      simp [hlook]
    · rw [show lookupD (⟨[(hs0 + 0, s)], [(s, 0)], [(s, none)]⟩ : SPState).G n =
        lookupD [(s, (0 : ℝ))] n from rfl, lookupD_cons_ne _ _ hns, lookupD] at hn
      cases hn
  · intro n u hl
    rw [show prevGet (⟨[(hs0 + 0, s)], [(s, 0)], [(s, none)]⟩ : SPState).prev n =
      prevGet [(s, (none : Option Node))] n from rfl, prevGet_init] at hl
    cases hl
  · exact lookupD_cons_self _ _ _
  · intro n hn
    by_cases hns : n = s
    · subst hns; exact Chain.base
    · rw [show lookupD (⟨[(hs0 + 0, s)], [(s, 0)], [(s, none)]⟩ : SPState).G n =
        lookupD [(s, (0 : ℝ))] n from rfl, lookupD_cons_ne _ _ hns, lookupD] at hn
      cases hn
  · intro n
    by_cases hns : n = s
    · subst hns
      simp [lookupD_cons_self]
    · rw [show lookupD (⟨[(hs0 + 0, s)], [(s, 0)], [(s, none)]⟩ : SPState).G n =
        lookupD [(s, (0 : ℝ))] n from rfl,
        show lookupD (⟨[(hs0 + 0, s)], [(s, 0)], [(s, none)]⟩ : SPState).prev n =
        lookupD [(s, (none : Option Node))] n from rfl,
        lookupD_cons_ne _ _ hns, lookupD_cons_ne _ _ hns]
      simp [lookupD]
  · intro n hn
    by_cases hns : n = s
    · subst hns
      exact Or.inr ⟨(hs0 + 0, n), List.mem_cons_self _ _, rfl⟩
    · rw [show lookupD (⟨[(hs0 + 0, s)], [(s, 0)], [(s, none)]⟩ : SPState).G n =
        lookupD [(s, (0 : ℝ))] n from rfl, lookupD_cons_ne _ _ hns, lookupD] at hn
      cases hn

lemma initState_none_iff {M : Map} {s g : Node} :
    initState M s g = none ↔ s ∉ nodesList M ∨ g ∉ nodesList M := by
  constructor
  · intro h
    by_cases hs : s ∈ nodesList M
    · by_cases hg : g ∈ nodesList M
      · obtain ⟨H, hH⟩ := computeH_isSome hg
        have hkeys := computeH_keys hH
        have hsome : (lookupD H s).isSome := by
          rw [lookupD_isSome_iff_mem, hkeys]
          exact hs
        obtain ⟨hs0, hs0'⟩ := Option.isSome_iff_exists.mp hsome
        rw [initState, hH] at h
        simp only [hs0'] at h
        cases h
      · exact Or.inr hg
    · exact Or.inl hs
  · intro h
    cases hH : computeH M g with
    | none => rw [initState, hH]
    | some H =>
      have hkeys := computeH_keys hH
      rcases h with hs | hg
      · rw [initState, hH]
        have : lookupD H s = none := by
          cases hl : lookupD H s with
          | none => rfl
          | some v =>
            exact absurd (by rw [← hkeys]; exact lookupD_some_mem_keys hl) hs
        simp only [this]
      · -- goal absent but computeH succeeded: the map must be empty
        -- (otherwise the first distance computation would have raised),
        -- so the lookup of H[start] fails as well
        cases hin : M.intersections with
        | nil =>
          have hHnil : H = [] := by
            have h2 := hkeys
            rw [nodesList, hin] at h2
            simpa using h2
          rw [initState, hH, hHnil]
          simp only [lookupD]
        | cons p rest =>
          exfalso
          rw [computeH, hin, List.mapM_cons] at hH
          cases hd : euc_dist M p.1 g with
          | none => simp only [hd] at hH; cases hH
          | some d =>
            obtain ⟨_, pg, _, hgl, _⟩ := euc_dist_some_inv hd
            exact hg (lookupD_some_mem_keys hgl)

/-! ### Properties of the final state -/

lemma closedAll_of_final {M : Map} {st : SPState} (hCl : ClosedInv M st)
    (hf : st.frontier = []) :
    ∀ n, (lookupD st.G n).isSome → ClosedAt M st n := by
  intro n hn
  rcases hCl n hn with h | ⟨e, he, _⟩
  · exact h
  · rw [hf] at he
    simp at he

lemma final_walk_bound {M : Map} {st : SPState}
    (hclosed : ∀ n, (lookupD st.G n).isSome → ClosedAt M st n) :
    ∀ (p : List Node) (x a : Node) (gx c : ℝ), lookupD st.G x = some gx →
      IsWalk M x a p → walkCost M p = some c →
      ∃ ga, lookupD st.G a = some ga ∧ ga ≤ gx + c := by
  intro p
  induction p with
  | nil => intro x a gx c _ hw _; exact absurd rfl hw.1
  | cons y rest ih =>
    intro x a gx c hgx hw hc
    obtain ⟨hne, hhead, hlast, hvalid⟩ := hw
    have hyx : y = x := by simpa using hhead
    subst hyx
    cases rest with
    | nil =>
      have hax : a = y := by simpa using hlast.symm
      subst hax
      rw [walkCost_single] at hc
      obtain rfl := Option.some_inj.mp hc.symm
      exact ⟨gx, hgx, by simp⟩
    | cons z rest' =>
      obtain ⟨hedge, hvalid'⟩ := hvalid
      rw [walkCost] at hc
      cases hd : euc_dist M y z with
      | none => rw [hd] at hc; cases hc
      | some d =>
        cases hcz : walkCost M (z :: rest') with
        | none => rw [hd, hcz] at hc; cases hc
        | some c' =>
          rw [hd, hcz] at hc
          obtain rfl := Option.some_inj.mp hc.symm
          obtain ⟨l, hroads, hl⟩ := hclosed y (by simp [hgx])
          obtain ⟨l2, hroads2, hz⟩ := hedge
          rw [hroads] at hroads2
          obtain rfl := Option.some_inj.mp hroads2.symm
          obtain ⟨d2, gx2, gz, hd2, hgx2, hgz, hle⟩ := hl z hz
          rw [hd] at hd2
          obtain rfl := Option.some_inj.mp hd2.symm
          rw [hgx] at hgx2
          obtain rfl := Option.some_inj.mp hgx2.symm
          have hwz : IsWalk M z a (z :: rest') := by
            refine ⟨by simp, rfl, ?_, hvalid'⟩
            rw [← hlast, List.getLast?_cons_cons]
          obtain ⟨ga, hga, hgale⟩ := ih z a gz c' hgz hwz hcz
          exact ⟨ga, hga, by linarith⟩

lemma chain_linksTo_cost {M : Map} {s : Node} {H : List (Node × ℝ)} {st : SPState}
    (hInv : Inv M s H st)
    (hclosed : ∀ n, (lookupD st.G n).isSome → ClosedAt M st n) :
    ∀ {n : Node} {p : List Node}, LinksTo st.prev s n p →
      ∃ gn, lookupD st.G n = some gn ∧ walkCost M p = some gn ∧ IsWalk M s n p := by
  intro n p h
  induction h with
  | base =>
    exact ⟨0, hInv.gstart, walkCost_single M s, IsWalk.single s⟩
  | step hne hlink hprev ih =>
    rename_i n' u q
    obtain ⟨gu, hgu, hcostq, hwalkq⟩ := ih
    obtain ⟨hns, hedge, gn, gu', d, hgn, hgu', hd, hsum⟩ := hInv.linkOk n' u hlink
    have e0 : gu = gu' := by rw [hgu] at hgu'; exact Option.some_inj.mp hgu'
    obtain ⟨l, hroads, hl⟩ := hclosed u (by simp [hgu])
    obtain ⟨l2, hroads2, hmem2⟩ := hedge
    have el : l = l2 := by rw [hroads] at hroads2; exact Option.some_inj.mp hroads2
    have hmem : n' ∈ l := el ▸ hmem2
    obtain ⟨d2, gu2, gn2, hd2, hgu2, hgn2, hle⟩ := hl n' hmem
    have e1 : d = d2 := by rw [hd] at hd2; exact Option.some_inj.mp hd2
    have e2 : gu = gu2 := by rw [hgu] at hgu2; exact Option.some_inj.mp hgu2
    have e3 : gn = gn2 := by rw [hgn] at hgn2; exact Option.some_inj.mp hgn2
    have hgneq : gn = gu + d := by
      rw [← e1, ← e2, ← e3] at hle
      rw [← e0] at hsum
      linarith
    refine ⟨gn, hgn, ?_, hwalkq.append_one ⟨l, hroads, hmem⟩⟩
    rw [walkCost_append_one hcostq hwalkq.2.2.1 hd, Option.some_inj]
    rw [hgneq]

lemma walk_cost_defined {M : Map} (hWF : WFMap M) :
    ∀ (p : List Node) (x a : Node), x ∈ nodesList M → IsWalk M x a p →
      (∃ c, walkCost M p = some c) ∧ a ∈ nodesList M := by
  intro p
  induction p with
  | nil => intro x a _ hw; exact absurd rfl hw.1
  | cons y rest ih =>
    intro x a hx hw
    obtain ⟨hne, hhead, hlast, hvalid⟩ := hw
    have hyx : y = x := by simpa using hhead
    subst hyx
    cases rest with
    | nil =>
      have hax : a = y := by simpa using hlast.symm
      subst hax
      exact ⟨⟨0, walkCost_single M _⟩, hx⟩
    | cons z rest' =>
      obtain ⟨hedge, hvalid'⟩ := hvalid
      obtain ⟨l, hroads, hsub⟩ := hWF.roads_spec hx
      obtain ⟨l2, hroads2, hz⟩ := hedge
      rw [hroads] at hroads2
      obtain rfl := Option.some_inj.mp hroads2.symm
      have hzmem : z ∈ nodesList M := hsub z hz
      have hwz : IsWalk M z a (z :: rest') := by
        refine ⟨by simp, rfl, ?_, hvalid'⟩
        rw [← hlast, List.getLast?_cons_cons]
      obtain ⟨⟨c, hc⟩, ha⟩ := ih z a hzmem hwz
      obtain ⟨py, hpy⟩ := Option.isSome_iff_exists.mp (coords_isSome_of_mem hx)
      obtain ⟨pz, hpz⟩ := Option.isSome_iff_exists.mp (coords_isSome_of_mem hzmem)
      exact ⟨⟨eucRR py pz + c, walkCost_cons_cons (euc_dist_eq hpy hpz) hc⟩, ha⟩

/-! ### The full run of `shortest_path` on a well-formed map -/

lemma shortest_path_spec {M : Map} {s g : Node} (hWF : WFMap M)
    (hs : s ∈ nodesList M) (hg : g ∈ nodesList M) :
    ∃ H st0 stF, initState M s g = some (H, st0) ∧
      runResult M H g st0 = some (some stF) ∧
      Inv M s H stF ∧ (∀ n, (lookupD stF.G n).isSome → ClosedAt M stF n) ∧
      shortest_path M s g = (match reconstruct_path stF.prev s g with
        | none => Outcome.diverged
        | some none => Outcome.noPath
        | some (some p) => Outcome.path p) := by
  cases hinit : initState M s g with
  | none =>
    rcases initState_none_iff.mp hinit with h | h
    · exact absurd hs h
    · exact absurd hg h
  | some pr =>
    obtain ⟨H, st0⟩ := pr
    obtain ⟨hInv0, hCl0, hKeys⟩ := initState_establishes hinit
    obtain ⟨k, hk⟩ := loop_halts g hKeys st0 hInv0 hCl0
    cases hrun : runFrom M H g k st0 with
    | fuelOut st => rw [hrun] at hk; cases hk
    | errored => exact absurd hrun (runFrom_not_errored hKeys hWF k st0 hInv0 hCl0)
    | finished stF =>
      obtain ⟨hInvF, hClF, hfr, _⟩ := runFrom_finished_inv hKeys hInv0 hCl0 hrun
      refine ⟨H, st0, stF, rfl, runResult_eq_of_finished hrun,
        hInvF, closedAll_of_final hClF hfr, ?_⟩
      rw [shortest_path]
      simp only [hinit, runResult_eq_of_finished hrun]

/-! ### Remaining helper lemmas for the claims -/

lemma steps_inv {M : Map} {s g : Node} {H : List (Node × ℝ)} {st0 st : SPState}
    (hinit : initState M s g = some (H, st0))
    (hsteps : Relation.ReflTransGen (stepRel M H g) st0 st) :
    Inv M s H st ∧ ClosedInv M st := by
  obtain ⟨hInv0, hCl0, hKeys⟩ := initState_establishes hinit
  induction hsteps with
  | refl => exact ⟨hInv0, hCl0⟩
  | tail hab hbc ih =>
    obtain ⟨hInvb, hClb⟩ := ih
    obtain ⟨hInv', hCl', _, _, _⟩ := step_next_inv hInvb hClb hKeys hbc
    exact ⟨hInv', hCl'⟩

lemma euc_le_walkCost {M : Map} :
    ∀ (p : List Node) (a b : Node) (d c : ℝ),
      euc_dist M a b = some d → IsWalk M a b p → walkCost M p = some c → d ≤ c := by
  intro p
  induction p with
  | nil => intro a b d c _ hw _; exact absurd rfl hw.1
  | cons y rest ih =>
    intro a b d c hd hw hc
    obtain ⟨hne, hhead, hlast, hvalid⟩ := hw
    have hya : y = a := by simpa using hhead
    cases rest with
    | nil =>
      have hab : b = y := by simpa using hlast.symm
      rw [walkCost_single] at hc
      obtain rfl := Option.some_inj.mp hc.symm
      obtain ⟨pa, pb, hpa, hpb, rfl⟩ := euc_dist_some_inv hd
      have : pa = pb := by
        rw [hab, hya] at hpb
        rw [hpa] at hpb
        exact Option.some_inj.mp hpb
      rw [this, eucRR_self]
    | cons z rest' =>
      obtain ⟨hedge, hvalid'⟩ := hvalid
      rw [walkCost] at hc
      cases hdyz : euc_dist M y z with
      | none => rw [hdyz] at hc; cases hc
      | some dyz =>
        cases hcz : walkCost M (z :: rest') with
        | none => rw [hdyz, hcz] at hc; cases hc
        | some c' =>
          rw [hdyz, hcz] at hc
          obtain rfl := Option.some_inj.mp hc.symm
          obtain ⟨pa, pb, hpa, hpb, rfl⟩ := euc_dist_some_inv hd
          obtain ⟨pa2, pz, hpa2, hpz, rfl⟩ := euc_dist_some_inv hdyz
          have hpaeq : pa2 = pa := by
            rw [hya] at hpa2
            rw [hpa] at hpa2
            exact (Option.some_inj.mp hpa2).symm
          have hzb : euc_dist M z b = some (eucRR pz pb) := euc_dist_eq hpz hpb
          have hwz : IsWalk M z b (z :: rest') := by
            refine ⟨by simp, rfl, ?_, hvalid'⟩
            rw [← hlast, List.getLast?_cons_cons]
          have hih := ih z b (eucRR pz pb) c' hzb hwz hcz
          have htri := eucRR_triangle pa pz pb
          rw [hpaeq] at *
          linarith

lemma reconstruct_path_total {pl : List (Node × Option Node)} {s g : Node}
    (hch : ∀ n u, prevGet pl n = some u → Chain pl s n) :
    reconstruct_path pl s g ≠ none := by
  by_cases hgs : g = s
  · subst hgs
    rw [reconstruct_path_of_linksTo LinksTo.base]
    simp
  · cases hpg : prevGet pl g with
    | none =>
      rw [reconstruct_path_of_badWalk (BadWalk.found hgs hpg)]
      simp
    | some u =>
      obtain ⟨p, hp⟩ := (hch g u hpg).linksTo
      rw [reconstruct_path_of_linksTo hp]
      simp

/-! ### Theorems for the claims -/

/-- C1: on a well-formed map, for any start node of the map and any goal
reachable from it, `shortest_path` returns a sequence that begins with
`start`, ends with `goal`, whose consecutive pairs are edges of the map,
and whose total Euclidean cost is minimal among all start-goal walks. -/
theorem c1_shortest_path_optimal {M : Map} {s g : Node}
    (hWF : WFMap M) (hs : s ∈ nodesList M) (hreach : Reachable M s g) :
    ∃ p c, shortest_path M s g = Outcome.path p ∧
      p.head? = some s ∧ p.getLast? = some g ∧ IsWalk M s g p ∧
      walkCost M p = some c ∧
      ∀ q cq, IsWalk M s g q → walkCost M q = some cq → c ≤ cq := by
  obtain ⟨pw, hpw⟩ := hreach
  have hg : g ∈ nodesList M := (walk_cost_defined hWF pw s g hs hpw).2
  obtain ⟨H, st0, stF, hinit, hrr, hInvF, hclosed, hout⟩ := shortest_path_spec hWF hs hg
  obtain ⟨⟨c0, hc0⟩, _⟩ := walk_cost_defined hWF pw s g hs hpw
  obtain ⟨gg, hgg, _⟩ := final_walk_bound hclosed pw s g 0 c0 hInvF.gstart hpw hc0
  obtain ⟨p, hLinks⟩ := (hInvF.chains g (by simp [hgg])).linksTo
  obtain ⟨gg', hgg', hcostp, hwalkp⟩ := chain_linksTo_cost hInvF hclosed hLinks
  refine ⟨p, gg', ?_, hLinks.head_eq, hLinks.getLast_eq, hwalkp, hcostp, ?_⟩
  · rw [hout, reconstruct_path_of_linksTo hLinks]
  · intro q cq hq hcq
    obtain ⟨ga, hga, hgale⟩ := final_walk_bound hclosed q s g 0 cq hInvF.gstart hq hcq
    have heq2 : ga = gg' := by
      rw [hgg'] at hga
      exact (Option.some_inj.mp hga).symm
    rw [heq2] at hgale
    linarith

/-- C3: on a well-formed map, when the goal node is not reachable from
the start node, `shortest_path` returns the explicit no-path outcome
(`None` in the source) — not an exception and not a path. -/
theorem c3_unreachable_noPath {M : Map} {s g : Node} (hWF : WFMap M)
    (hs : s ∈ nodesList M) (hg : g ∈ nodesList M) (hreach : ¬ Reachable M s g) :
    shortest_path M s g = Outcome.noPath := by
  obtain ⟨H, st0, stF, hinit, hrr, hInvF, hclosed, hout⟩ := shortest_path_spec hWF hs hg
  have hgs : g ≠ s := by
    intro he
    subst he
    exact hreach ⟨[g], IsWalk.single g⟩
  have hgdom : lookupD stF.G g = none := by
    cases hl : lookupD stF.G g with
    | none => rfl
    | some v =>
      obtain ⟨_, q, hq, _⟩ := hInvF.gval g v hl
      exact absurd ⟨q, hq⟩ hreach
  have hprev : lookupD stF.prev g = none := by
    cases hl : lookupD stF.prev g with
    | none => rfl
    | some v =>
      have := (hInvF.domEq g).mp (by simp [hl])
      rw [hgdom] at this
      cases this
  have hpg : prevGet stF.prev g = none := by
    rw [prevGet, hprev]
  rw [hout, reconstruct_path_of_badWalk (BadWalk.found hgs hpg)]

/-- C4: when the start or the goal node is absent from the map, the call
fails during initialization (before the search loop), with an uncaught
`KeyError` — an outcome distinct from the no-path result. -/
theorem c4_invalid_input_fails_fast {M : Map} {s g : Node}
    (h : s ∉ nodesList M ∨ g ∉ nodesList M) :
    initState M s g = none ∧ shortest_path M s g = Outcome.err ∧
      Outcome.err ≠ Outcome.noPath := by
  have hinit : initState M s g = none := initState_none_iff.mpr h
  refine ⟨hinit, ?_, by intro hh; cases hh⟩
  rw [shortest_path]
  simp only [hinit]

/-- C5: on a well-formed map, searching from any valid node to itself
returns the single-node path `[start]`, whose total cost is `0`. -/
theorem c5_trivial_path {M : Map} {s : Node} (hWF : WFMap M)
    (hs : s ∈ nodesList M) :
    shortest_path M s s = Outcome.path [s] ∧ walkCost M [s] = some 0 := by
  obtain ⟨H, st0, stF, hinit, hrr, hInvF, hclosed, hout⟩ := shortest_path_spec hWF hs hs
  refine ⟨?_, walkCost_single M s⟩
  rw [hout, reconstruct_path_of_linksTo LinksTo.base]

/-- C6: the heuristic dictionary computed at the start of the search is
admissible — for every node, its entry (the Euclidean distance to the
goal's coordinates) is at most the cost of every walk from that node to
the goal. -/
theorem c6_heuristic_admissible {M : Map} {g : Node} {H : List (Node × ℝ)}
    (hH : computeH M g = some H) :
    ∀ n h, lookupD H n = some h →
      ∀ p c, IsWalk M n g p → walkCost M p = some c → h ≤ c := by
  intro n h hl p c hw hc
  exact euc_le_walkCost p n g h c (computeH_lookup hH hl) hw hc

/-- C7: throughout a run of `shortest_path`, the cost dictionary `G`
keeps `G[start] = 0`, its key set only grows across a step, and a
tracked value never increases — whenever it changes it strictly
decreases. -/
theorem c7_cost_map_monotone {M : Map} {s g : Node} {H : List (Node × ℝ)}
    {st0 st st' : SPState}
    (hinit : initState M s g = some (H, st0))
    (hsteps : Relation.ReflTransGen (stepRel M H g) st0 st)
    (hstep : stepRel M H g st st') :
    lookupD st.G s = some 0 ∧ lookupD st'.G s = some 0 ∧
    (∀ n, (lookupD st.G n).isSome → (lookupD st'.G n).isSome) ∧
    (∀ n v v', lookupD st.G n = some v → lookupD st'.G n = some v' → v' ≤ v) ∧
    (∀ n v v', lookupD st.G n = some v → lookupD st'.G n = some v' → v' ≠ v → v' < v) := by
  obtain ⟨hInv, hCl⟩ := steps_inv hinit hsteps
  obtain ⟨_, _, hKeys⟩ := initState_establishes hinit
  obtain ⟨hInv', hCl', hkeys, hvals, _⟩ := step_next_inv hInv hCl hKeys hstep
  exact ⟨hInv.gstart, hInv'.gstart, hkeys, hvals,
    fun n v v' hv hv' hne => lt_of_le_of_ne (hvals n v v' hv hv') hne⟩

/-- C8: `reconstruct_path` reports no-path exactly when the backward
walk from the goal reaches a node that is not the start and has no
recorded predecessor; otherwise it returns the goal-to-start chain
reversed into start-to-goal order (the sequence read off the links).
This holds for any predecessor map, independently of the search loop. -/
theorem c8_reconstruct_path_spec (pl : List (Node × Option Node)) (s g : Node) :
    (reconstruct_path pl s g = some none ↔ BadWalk pl s g) ∧
    ∀ p, reconstruct_path pl s g = some (some p) ↔ LinksTo pl s g p :=
  ⟨reconstruct_path_some_none_iff, fun p => reconstruct_path_some_some_iff p⟩

/-- C9: `shortest_path` never diverges: the search loop always reaches
the empty frontier (or raises) after finitely many iterations, and the
predecessor map produced by any run is a tree rooted at the start, so
the backward walk of `reconstruct_path` terminates; moreover every
recorded node's chain reaches the start. -/
theorem c9_termination (M : Map) (s g : Node) :
    shortest_path M s g ≠ Outcome.diverged ∧
    ∀ H st0 stF k, initState M s g = some (H, st0) →
      runFrom M H g k st0 = .finished stF →
      ∀ n, (lookupD stF.G n).isSome → Chain stF.prev s n := by
  constructor
  · intro hdiv
    cases hinit : initState M s g with
    | none =>
      rw [shortest_path] at hdiv
      simp only [hinit] at hdiv
      cases hdiv
    | some pr =>
      obtain ⟨H, st0⟩ := pr
      obtain ⟨hInv0, hCl0, hKeys⟩ := initState_establishes hinit
      obtain ⟨k, hk⟩ := loop_halts g hKeys st0 hInv0 hCl0
      cases hrun : runFrom M H g k st0 with
      | fuelOut st => rw [hrun] at hk; cases hk
      | errored =>
        rw [shortest_path] at hdiv
        simp only [hinit, runResult_eq_of_errored hrun] at hdiv
        cases hdiv
      | finished stF =>
        obtain ⟨hInvF, hClF, hfr, _⟩ := runFrom_finished_inv hKeys hInv0 hCl0 hrun
        have htot : reconstruct_path stF.prev s g ≠ none := by
          apply reconstruct_path_total
          intro n u hl
          have hdom : (lookupD stF.G n).isSome := by
            obtain ⟨_, _, gn, _, _, hgn, _⟩ := hInvF.linkOk n u hl
            simp [hgn]
          exact hInvF.chains n hdom
        rw [shortest_path] at hdiv
        simp only [hinit, runResult_eq_of_finished hrun] at hdiv
        cases hrec : reconstruct_path stF.prev s g with
        | none => exact htot hrec
        | some r =>
          rw [hrec] at hdiv
          cases r with
          | none => cases hdiv
          | some p => cases hdiv
  · intro H st0 stF k hinit hrun
    obtain ⟨hInv0, hCl0, hKeys⟩ := initState_establishes hinit
    obtain ⟨hInvF, _, _, _⟩ := runFrom_finished_inv hKeys hInv0 hCl0 hrun
    exact hInvF.chains

/-- C10: when the main loop ends, the cost dictionary is fully relaxed:
every recorded value is the cost of an actual walk from the start and is
at most the cost of every walk from the start to that node — i.e. it is
the exact shortest-path distance, not merely an upper bound. -/
theorem c10_final_G_fully_relaxed {M : Map} {s g : Node} {H : List (Node × ℝ)}
    {st0 stF : SPState} {k : ℕ}
    (hinit : initState M s g = some (H, st0))
    (hrun : runFrom M H g k st0 = .finished stF) :
    ∀ n v, lookupD stF.G n = some v →
      v ∈ WalkCosts M s n ∧ ∀ c ∈ WalkCosts M s n, v ≤ c := by
  intro n v hv
  obtain ⟨hInv0, hCl0, hKeys⟩ := initState_establishes hinit
  obtain ⟨hInvF, hClF, hfr, _⟩ := runFrom_finished_inv hKeys hInv0 hCl0 hrun
  have hclosed := closedAll_of_final hClF hfr
  refine ⟨(hInvF.gval n v hv).2, ?_⟩
  rintro c ⟨q, hq, hcq⟩
  obtain ⟨ga, hga, hgale⟩ := final_walk_bound hclosed q s n 0 c hInvF.gstart hq hcq
  have : ga = v := by rw [hv] at hga; exact (Option.some_inj.mp hga).symm
  rw [← this]
  linarith

/-! ### Concrete evaluation of the search on the example map -/

lemma eucRRex1 : eucRR (0, 0) (1, 0) = 1 := by
  rw [eucRR]
  norm_num

lemma eucRRex2 : eucRR (2, 0) (1, 0) = 1 := by
  rw [eucRR]
  norm_num

lemma eucEx01 : euc_dist mapEx 0 1 = some 1 := by
  show some (eucRR (0, 0) (1, 0)) = some 1
  rw [eucRRex1]

lemma eucEx10 : euc_dist mapEx 1 0 = some 1 := by
  show some (eucRR (1, 0) (0, 0)) = some 1
  rw [Option.some_inj, eucRR]
  norm_num

lemma eucEx12 : euc_dist mapEx 1 2 = some 1 := by
  show some (eucRR (1, 0) (2, 0)) = some 1
  rw [Option.some_inj, eucRR]
  norm_num

lemma eucEx21 : euc_dist mapEx 2 1 = some 1 := by
  show some (eucRR (2, 0) (1, 0)) = some 1
  rw [eucRRex2]

lemma computeHEx : computeH mapEx 1 = some hEx := by
  show some [(0, eucRR (0, 0) (1, 0)), (1, eucRR (1, 0) (1, 0)), (2, eucRR (2, 0) (1, 0))] =
    some hEx
  rw [eucRRex1, eucRRex2, eucRR_self, hEx]

lemma initEx : initState mapEx 0 1 = some (hEx, stEx0) := by
  rw [initState, computeHEx]
  show some (hEx, ⟨[((1 : ℝ) + 0, 0)], [(0, 0)], [(0, none)]⟩) = some (hEx, stEx0)
  rw [Option.some_inj, Prod.mk.injEq]
  refine ⟨rfl, ?_⟩
  rw [stEx0, SPState.mk.injEq]
  norm_num

lemma eucRRex10 : eucRR (1, 0) (0, 0) = 1 := by
  rw [eucRR]
  norm_num

lemma eucRRex12 : eucRR (1, 0) (2, 0) = 1 := by
  rw [eucRR]
  norm_num

lemma popEx0 : popMin stEx0.frontier = some ((1, 0), []) := by
  show some (((1 : ℝ), 0), removeFirst [((1 : ℝ), 0)] ((1 : ℝ), 0)) = some (((1 : ℝ), 0), [])
  rw [removeFirst, if_pos rfl]

lemma popEx1 : popMin stEx1.frontier = some ((1, 1), []) := by
  show some (((1 : ℝ), 1), removeFirst [((1 : ℝ), 1)] ((1 : ℝ), 1)) = some (((1 : ℝ), 1), [])
  rw [removeFirst, if_pos rfl]

lemma popEx2 : popMin stEx2.frontier = some ((3, 2), []) := by
  show some (((3 : ℝ), 2), removeFirst [((3 : ℝ), 2)] ((3 : ℝ), 2)) = some (((3 : ℝ), 2), [])
  rw [removeFirst, if_pos rfl]

lemma expandEx0 : expand mapEx hEx 0 ⟨[], stEx0.G, stEx0.prev⟩ = some stEx1 := by
  show some (⟨[(0 + eucRR (0, 0) (1, 0) + 0, 1)], (1, 0 + eucRR (0, 0) (1, 0)) :: stEx0.G,
    (1, some 0) :: stEx0.prev⟩ : SPState) = some stEx1
  rw [eucRRex1, Option.some_inj, stEx1, SPState.mk.injEq]
  refine ⟨?_, ?_, rfl⟩ <;> norm_num [stEx0]

lemma stepEx0 : step mapEx hEx 1 stEx0 = StepRes.next stEx1 := by
  rw [step]
  simp only [popEx0, expandEx0]

lemma relaxEx1a : relaxOne mapEx hEx 1 ⟨[], stEx1.G, stEx1.prev⟩ 0 =
    some ⟨[], stEx1.G, stEx1.prev⟩ := by
  show (if 1 + eucRR (1, 0) (0, 0) < 0 then
      some (⟨[(1 + eucRR (1, 0) (0, 0) + 1, 0)], (0, 1 + eucRR (1, 0) (0, 0)) :: stEx1.G,
        (0, some 1) :: stEx1.prev⟩ : SPState)
    else some (⟨[], stEx1.G, stEx1.prev⟩ : SPState)) = some (⟨[], stEx1.G, stEx1.prev⟩ : SPState)
  rw [if_neg (by rw [eucRRex10]; norm_num : ¬(1 + eucRR (1, 0) (0, 0) < (0 : ℝ)))]

lemma relaxEx1b : relaxOne mapEx hEx 1 ⟨[], stEx1.G, stEx1.prev⟩ 2 =
    some ⟨[(1 + eucRR (1, 0) (2, 0) + 1, 2)], (2, 1 + eucRR (1, 0) (2, 0)) :: stEx1.G,
      (2, some 1) :: stEx1.prev⟩ := rfl

lemma expandEx1 : expand mapEx hEx 1 ⟨[], stEx1.G, stEx1.prev⟩ = some stEx2 := by
  show List.foldlM (relaxOne mapEx hEx 1) (⟨[], stEx1.G, stEx1.prev⟩ : SPState) [0, 2] =
    some stEx2
  rw [List.foldlM_cons, relaxEx1a]
  simp only [Option.bind_eq_bind, Option.some_bind]
  rw [List.foldlM_cons, relaxEx1b]
  simp only [Option.bind_eq_bind, Option.some_bind, List.foldlM_nil]
  show some (⟨[(1 + eucRR (1, 0) (2, 0) + 1, 2)], (2, 1 + eucRR (1, 0) (2, 0)) :: stEx1.G,
      (2, some 1) :: stEx1.prev⟩ : SPState) = some stEx2
  rw [eucRRex12, Option.some_inj, stEx2, SPState.mk.injEq]
  refine ⟨?_, ?_, rfl⟩ <;> norm_num [stEx1]

lemma stepEx1 : step mapEx hEx 1 stEx1 = StepRes.next stEx2 := by
  rw [step]
  simp only [popEx1, expandEx1]

lemma relaxEx2a : relaxOne mapEx hEx 2 ⟨[], stEx2.G, stEx2.prev⟩ 1 =
    some ⟨[], stEx2.G, stEx2.prev⟩ := by
  show (if 2 + eucRR (2, 0) (1, 0) < 1 then
      some (⟨[(2 + eucRR (2, 0) (1, 0) + 0, 1)], (1, 2 + eucRR (2, 0) (1, 0)) :: stEx2.G,
        (1, some 2) :: stEx2.prev⟩ : SPState)
    else some (⟨[], stEx2.G, stEx2.prev⟩ : SPState)) = some (⟨[], stEx2.G, stEx2.prev⟩ : SPState)
  rw [if_neg (by rw [eucRRex2]; norm_num : ¬(2 + eucRR (2, 0) (1, 0) < (1 : ℝ)))]

lemma expandEx2 : expand mapEx hEx 2 ⟨[], stEx2.G, stEx2.prev⟩ = some stEx3 := by
  show List.foldlM (relaxOne mapEx hEx 2) (⟨[], stEx2.G, stEx2.prev⟩ : SPState) [1] =
    some stEx3
  rw [List.foldlM_cons, relaxEx2a]
  simp only [Option.bind_eq_bind, Option.some_bind, List.foldlM_nil]
  rfl

lemma stepEx2 : step mapEx hEx 1 stEx2 = StepRes.next stEx3 := by
  rw [step]
  simp only [popEx2, expandEx2]

lemma stepEx3 : step mapEx hEx 1 stEx3 = StepRes.halt := rfl

lemma runEx4 : runFrom mapEx hEx 1 4 stEx0 = LoopRes.finished stEx3 := by
  have h1 : runFrom mapEx hEx 1 (0 + 1) stEx3 = LoopRes.finished stEx3 := by
    rw [runFrom]
    simp only [stepEx3]
  have h2 : runFrom mapEx hEx 1 (1 + 1) stEx2 = LoopRes.finished stEx3 := by
    rw [runFrom]
    simp only [stepEx2]
    exact h1
  have h3 : runFrom mapEx hEx 1 (2 + 1) stEx1 = LoopRes.finished stEx3 := by
    rw [runFrom]
    simp only [stepEx1]
    exact h2
  show runFrom mapEx hEx 1 (3 + 1) stEx0 = LoopRes.finished stEx3
  rw [runFrom]
  simp only [stepEx0]
  exact h3

/-! ### C2 and the witnesses -/

/-- C2 counterexample: in the run on `mapEx` from node 0 to goal node 1,
the second loop iteration extracts the goal from the frontier, yet the
iteration yields `.next` — the loop does not stop — and the following
iteration extracts and expands node 2, a node different from the goal.
So the claim that the loop stops at the first extraction of the goal,
with no further nodes expanded afterwards, is false on this input. -/
theorem c2_counterexample :
    initState mapEx 0 1 = some (hEx, stEx0) ∧
    step mapEx hEx 1 stEx0 = StepRes.next stEx1 ∧
    popMin stEx1.frontier = some ((1, 1), []) ∧
    step mapEx hEx 1 stEx1 = StepRes.next stEx2 ∧
    popMin stEx2.frontier = some ((3, 2), []) ∧
    step mapEx hEx 1 stEx2 = StepRes.next stEx3 :=
  ⟨initEx, stepEx0, popEx1, stepEx1, popEx2, stepEx2⟩

/-- C2 (amended): the loop's terminal condition is exhaustion of the
frontier — extracting the goal does not stop it; and whenever the entry
extracted from the frontier is the goal, the predecessor map at that
moment contains a valid chain from the goal back to the start. -/
theorem c2_amended_terminal_condition {M : Map} {s g : Node} {H : List (Node × ℝ)}
    {st0 st : SPState}
    (hinit : initState M s g = some (H, st0))
    (hsteps : Relation.ReflTransGen (stepRel M H g) st0 st) :
    (step M H g st = StepRes.halt ↔ st.frontier = []) ∧
    (∀ f rest, popMin st.frontier = some ((f, g), rest) → Chain st.prev s g) := by
  obtain ⟨hInv, hCl⟩ := steps_inv hinit hsteps
  refine ⟨step_halt_iff, ?_⟩
  intro f rest hpop
  obtain ⟨hmem, _⟩ := popMin_some_inv hpop
  exact hInv.chains g (hInv.frontierG (f, g) hmem)

lemma walkEx012 : IsWalk mapEx 0 2 [0, 1, 2] :=
  ⟨by simp, rfl, rfl, ⟨⟨[1], rfl, by decide⟩, ⟨[0, 2], rfl, by decide⟩, trivial⟩⟩

/-- Witness for C1 at the example map, start 0, goal 2. -/
theorem c1_witness :
    WFMap mapEx ∧ 0 ∈ nodesList mapEx ∧ Reachable mapEx 0 2 ∧
    (∃ p c, shortest_path mapEx 0 2 = Outcome.path p ∧ p.head? = some 0 ∧
      p.getLast? = some 2 ∧ IsWalk mapEx 0 2 p ∧ walkCost mapEx p = some c ∧
      ∀ q cq, IsWalk mapEx 0 2 q → walkCost mapEx q = some cq → c ≤ cq) :=
  ⟨rfl, by decide, ⟨[0, 1, 2], walkEx012⟩,
    c1_shortest_path_optimal rfl (by decide) ⟨[0, 1, 2], walkEx012⟩⟩

/-- Witness for C2's amended theorem, at the state that extracts the goal. -/
theorem c2_witness :
    initState mapEx 0 1 = some (hEx, stEx0) ∧
    ((step mapEx hEx 1 stEx1 = StepRes.halt ↔ stEx1.frontier = []) ∧
      ∀ f rest, popMin stEx1.frontier = some ((f, 1), rest) → Chain stEx1.prev 0 1) :=
  ⟨initEx, c2_amended_terminal_condition initEx (Relation.ReflTransGen.single stepEx0)⟩

lemma mapDisc_unreachable : ¬ Reachable mapDisc 0 1 := by
  rintro ⟨p, hne, hh, hl, hv⟩
  cases p with
  | nil => exact hne rfl
  | cons y rest =>
    have hy : y = 0 := by simpa using hh
    cases rest with
    | nil =>
      rw [List.getLast?_singleton] at hl
      obtain rfl := Option.some_inj.mp hl
      exact absurd hy (by decide)
    | cons z rest' =>
      obtain ⟨⟨l, hlk, hzl⟩, _⟩ := hv
      rw [hy] at hlk
      rw [show lookupD mapDisc.roads 0 = some [] from rfl] at hlk
      obtain rfl := Option.some_inj.mp hlk.symm
      simp at hzl

/-- Witness for C3 on the disconnected two-node map. -/
theorem c3_witness :
    WFMap mapDisc ∧ 0 ∈ nodesList mapDisc ∧ 1 ∈ nodesList mapDisc ∧
    ¬ Reachable mapDisc 0 1 ∧ shortest_path mapDisc 0 1 = Outcome.noPath :=
  ⟨rfl, by decide, by decide, mapDisc_unreachable,
    c3_unreachable_noPath rfl (by decide) (by decide) mapDisc_unreachable⟩

/-- Witness for C4: goal node 5 is not on the example map. -/
theorem c4_witness :
    (0 ∉ nodesList mapEx ∨ 5 ∉ nodesList mapEx) ∧
    initState mapEx 0 5 = none ∧ shortest_path mapEx 0 5 = Outcome.err ∧
    Outcome.err ≠ Outcome.noPath := by
  have h : 0 ∉ nodesList mapEx ∨ 5 ∉ nodesList mapEx := Or.inr (by decide)
  obtain ⟨h1, h2, h3⟩ := c4_invalid_input_fails_fast h
  exact ⟨h, h1, h2, h3⟩

/-- Witness for C5 at node 0 of the example map. -/
theorem c5_witness :
    WFMap mapEx ∧ 0 ∈ nodesList mapEx ∧
    shortest_path mapEx 0 0 = Outcome.path [0] ∧ walkCost mapEx [0] = some 0 := by
  obtain ⟨h1, h2⟩ := @c5_trivial_path mapEx 0 rfl (by decide)
  exact ⟨rfl, by decide, h1, h2⟩

/-- Witness for C6 on the example map's heuristic toward goal 1. -/
theorem c6_witness :
    computeH mapEx 1 = some hEx ∧ lookupD hEx 0 = some 1 ∧
    IsWalk mapEx 0 1 [0, 1] ∧ walkCost mapEx [0, 1] = some 1 ∧ (1 : ℝ) ≤ 1 := by
  have hw : IsWalk mapEx 0 1 [0, 1] := ⟨by simp, rfl, rfl, ⟨⟨[1], rfl, by decide⟩, trivial⟩⟩
  have hc : walkCost mapEx [0, 1] = some 1 := by
    rw [walkCost_cons_cons eucEx01 (walkCost_single mapEx 1)]
    norm_num
  exact ⟨computeHEx, rfl, hw, hc, c6_heuristic_admissible computeHEx 0 1 rfl [0, 1] 1 hw hc⟩

/-- Witness for C7 across the first iteration of the example run. -/
theorem c7_witness :
    initState mapEx 0 1 = some (hEx, stEx0) ∧
    (lookupD stEx0.G 0 = some 0 ∧ lookupD stEx1.G 0 = some 0 ∧
      (∀ n, (lookupD stEx0.G n).isSome → (lookupD stEx1.G n).isSome) ∧
      (∀ n v v', lookupD stEx0.G n = some v → lookupD stEx1.G n = some v' → v' ≤ v) ∧
      (∀ n v v', lookupD stEx0.G n = some v → lookupD stEx1.G n = some v' → v' ≠ v → v' < v)) :=
  ⟨initEx, c7_cost_map_monotone initEx Relation.ReflTransGen.refl stepEx0⟩

/-- Witness for C9 on a full example run: no divergence, and the final
predecessor chain of node 2 reaches the start. -/
theorem c9_witness :
    shortest_path mapEx 0 1 ≠ Outcome.diverged ∧ Chain stEx3.prev 0 2 :=
  ⟨(c9_termination mapEx 0 1).1,
    (c9_termination mapEx 0 1).2 hEx stEx0 stEx3 4 initEx runEx4 2 rfl⟩

/-- Witness for C10 on the finished example run: the recorded value 2 of
node 2 is the exact shortest distance from the start. -/
theorem c10_witness :
    initState mapEx 0 1 = some (hEx, stEx0) ∧
    runFrom mapEx hEx 1 4 stEx0 = LoopRes.finished stEx3 ∧
    ((2 : ℝ) ∈ WalkCosts mapEx 0 2 ∧ ∀ c ∈ WalkCosts mapEx 0 2, (2 : ℝ) ≤ c) :=
  ⟨initEx, runEx4, c10_final_G_fully_relaxed initEx runEx4 2 2 rfl⟩

end RoutePlanner
